import Mathlib

/-!
# Verification of the HTML process/analyze pipeline

Shallow embedding of the core of the repository's pipeline:

* `processor/process.py` : `strip_html`, `count_statistics`, `process_html_file`
  and the processor `main` loop;
* `analyzer/analyze.py`  : `jaccard_similarity`, `tokenize_text`,
  `calculate_readability_metrics`, `analyze_corpus`,
  `calculate_document_similarities` and the analyzer `main`.

Strings are modelled as `List Char`; Python's regular-expression scanning is
modelled character by character with the exact backtracking behaviour of each
concrete pattern used by the source.  Character classes (`\s`, `\w`,
`[a-zA-Z]`, `str.lower`) are modelled over ASCII.  Floating point arithmetic
of the source is modelled over `ℚ`, with Python's `round(x, n)`
(half-to-even) on rationals.  File systems are modelled as association
lists / lookup functions, and writes are atomic.
-/

namespace Pipeline

/-- ASCII whitespace, Python's `\s` / `str.split()` / `str.strip()` class. -/
def isSpace (c : Char) : Bool :=
  c = ' ' || c = '\t' || c = '\n' || c = '\r' || c = '\x0b' || c = '\x0c'

/-- ASCII alphabetic, the regex class `[a-zA-Z]`. -/
def isAsciiAlpha (c : Char) : Bool :=
  ('a' ≤ c && c ≤ 'z') || ('A' ≤ c && c ≤ 'Z')

/-- ASCII digit, the regex class `[0-9]`. -/
def isAsciiDigit (c : Char) : Bool :=
  '0' ≤ c && c ≤ '9'

/-- A regex word character `\w` (ASCII): letter, digit or underscore.
`\b` in `re` is a boundary between a `\w` char and a non-`\w` char. -/
def isWordChar (c : Char) : Bool :=
  isAsciiAlpha c || isAsciiDigit c || c = '_'

/-- ASCII `str.lower` on one character (as in core `Char.toLower`). -/
def pyLower (c : Char) : Char :=
  if 65 ≤ c.toNat ∧ c.toNat ≤ 90 then Char.ofNat (c.toNat + 32) else c

/-!
## `tokenize_text` (analyze.py lines 17–20)

```python
def tokenize_text(text):
    words = re.findall(r'\b[a-zA-Z]+\b', text.lower())
    return words
```

A match of `\b[a-zA-Z]+\b` is a maximal run of ASCII letters whose left
neighbour (if any) and right neighbour (if any) are not word characters:
backtracking inside a letter run always fails the trailing `\b`, and a match
cannot start in the middle of a run because the leading `\b` fails between
two letters.  `tokenizeAux` scans once, accumulating the current letter run
in `cur` (reversed); `leftOK` records whether the character just before the
current run start was absent or not a word character.
-/

def tokenizeAux (leftOK : Bool) (cur : List Char) : List Char → List (List Char)
  | [] => if leftOK && !(cur.isEmpty) then [cur.reverse] else []
  | c :: rest =>
    if isAsciiAlpha c then
      tokenizeAux leftOK (c :: cur) rest
    else
      let tail := tokenizeAux (!(isWordChar c)) [] rest
      if !(cur.isEmpty) && leftOK && !(isWordChar c) then cur.reverse :: tail else tail

/-- `tokenize_text`: lowercase, then `re.findall(r'\b[a-zA-Z]+\b', ·)`. -/
def tokenize_text (text : List Char) : List (List Char) :=
  tokenizeAux true [] (text.map pyLower)

/-- Modelled from the spec: "lower-case the text, extract maximal runs of
alphabetic characters as words (digits and punctuation are word boundaries,
not part of tokens)" — the plain maximal-alphabetic-run splitter, with every
non-letter character acting as a boundary only. -/
def alphaRunsAux (cur : List Char) : List Char → List (List Char)
  | [] => if cur.isEmpty then [] else [cur.reverse]
  | c :: rest =>
    if isAsciiAlpha c then
      alphaRunsAux (c :: cur) rest
    else
      if cur.isEmpty then alphaRunsAux [] rest else cur.reverse :: alphaRunsAux [] rest

/-- Modelled from the spec: maximal alphabetic runs of a (lower-cased) text. -/
def alphaRunsSpec (text : List Char) : List (List Char) :=
  alphaRunsAux [] text

/-!
## `strip_html` (process.py lines 8–26)

```python
def strip_html(html_content):
    html_content = re.sub(r'<script[^>]*>.*?</script>', '', html_content, flags=re.DOTALL | re.IGNORECASE)
    html_content = re.sub(r'<style[^>]*>.*?</style>', '', html_content, flags=re.DOTALL | re.IGNORECASE)
    links = re.findall(r'href=[\'"]?([^\'" >]+)', html_content, flags=re.IGNORECASE)
    images = re.findall(r'src=[\'"]?([^\'" >]+)', html_content, flags=re.IGNORECASE)
    text = re.sub(r'<[^>]+>', ' ', html_content)
    text = re.sub(r'\s+', ' ', text).strip()
    return text, links, images
```
-/

/-- Case-insensitive (ASCII) prefix test, for the `re.IGNORECASE` literals. -/
def isPrefixCI : List Char → List Char → Bool
  | [], _ => true
  | _ :: _, [] => false
  | p :: ps, c :: cs => (pyLower p = pyLower c) && isPrefixCI ps cs

/-- Drop characters up to and including the first occurrence of `c`;
`none` if `c` does not occur.  Models `[^x]*x` (greedy run then the literal). -/
def dropThroughChar (c : Char) : List Char → Option (List Char)
  | [] => none
  | x :: xs => if x = c then some xs else dropThroughChar c xs

/-- Drop characters up to and including the first (case-insensitive)
occurrence of the non-empty pattern `pat`; `none` if it never occurs.
Models the non-greedy `.*?pat` with `re.DOTALL`. -/
def dropThroughSubstr (pat : List Char) : List Char → Option (List Char)
  | [] => none
  | c :: cs => if isPrefixCI pat (c :: cs) then some ((c :: cs).drop pat.length)
               else dropThroughSubstr pat cs

/-- One `re.sub(r'OPEN[^>]*>.*?CLOSE', '', s)` scan (DOTALL, IGNORECASE),
with `OPEN` of the form `<tagname` and `CLOSE` of the form `</tagname>`.
`fuel`-structural so that the kernel can evaluate it; the fuel is the input
length.  A match at the current position consumes `OPEN`, everything up to
and including the first following `'>'`, then everything up to and
including the first following `CLOSE`; on failure to match, the scan moves
one character right. -/
def removeBlocksFuel (opn cls : List Char) : ℕ → List Char → List Char
  | 0, l => l
  | _ + 1, [] => []
  | fuel + 1, c :: rest =>
    if isPrefixCI opn (c :: rest) then
      match (dropThroughChar '>' ((c :: rest).drop opn.length)).bind
            (dropThroughSubstr cls) with
      | some r3 => removeBlocksFuel opn cls fuel r3
      | none => c :: removeBlocksFuel opn cls fuel rest
    else c :: removeBlocksFuel opn cls fuel rest

/-- `re.sub(r'<script[^>]*>.*?</script>', '', s, flags=re.DOTALL | re.IGNORECASE)`. -/
def removeScript (l : List Char) : List Char :=
  removeBlocksFuel "<script".data "</script>".data l.length l

/-- `re.sub(r'<style[^>]*>.*?</style>', '', s, flags=re.DOTALL | re.IGNORECASE)`. -/
def removeStyle (l : List Char) : List Char :=
  removeBlocksFuel "<style".data "</style>".data l.length l

/-- Characters allowed inside a captured attribute value: `[^\'" >]`. -/
def isAttrChar (c : Char) : Bool :=
  !(c = '\'' || c = '"' || c = ' ' || c = '>')

/-- Match `[\'"]?([^\'" >]+)` at the start of `l`: optionally consume one
quote, then capture a non-empty run of allowed characters.  Returns the
capture and the rest of the input after it.  If the run after the optional
quote is empty the whole pattern fails (backtracking over the optional
quote cannot help, since a quote is not an allowed capture character). -/
def matchAttrVal (l : List Char) : Option (List Char × List Char) :=
  match l with
  | [] => none
  | q :: rs =>
    if q = '\'' || q = '"' then
      let cap := rs.takeWhile isAttrChar
      if cap.isEmpty then none else some (cap, rs.drop cap.length)
    else
      let cap := (q :: rs).takeWhile isAttrChar
      if cap.isEmpty then none else some (cap, (q :: rs).drop cap.length)

/-- `re.findall(r'KEY[\'"]?([^\'" >]+)', s, flags=re.IGNORECASE)` for a
literal `KEY` (`href=` or `src=`), fuel-structural.  Scanning is leftmost,
non-overlapping; after a match the scan resumes right after the capture
(the capture ends the pattern). -/
def findAttrsFuel (key : List Char) : ℕ → List Char → List (List Char)
  | 0, _ => []
  | _ + 1, [] => []
  | fuel + 1, c :: rest =>
    if isPrefixCI key (c :: rest) then
      match matchAttrVal ((c :: rest).drop key.length) with
      | some (cap, r') => cap :: findAttrsFuel key fuel r'
      | none => findAttrsFuel key fuel rest
    else findAttrsFuel key fuel rest

/-- All `href=`/`src=` attribute values of `l`, in document order. -/
def findAttrs (key : List Char) (l : List Char) : List (List Char) :=
  findAttrsFuel key l.length l

/-- One `re.sub(r'<[^>]+>', ' ', s)` scan as a character machine.  `buf` is
`some b` when the scan sits inside a potential tag: `b` holds (reversed) the
`'<'` and the non-`'>'` characters read since.  A `'>'` closing a non-empty
body completes a match, emitted as one space; a `'>'` right after `'<'`
(empty body, `[^>]+` needs at least one character) fails, and the buffered
characters are emitted literally.  At end of input an open buffer is
emitted literally (no later match could involve it: it contains no `'>'`). -/
def removeTagsAux : Option (List Char) → List Char → List Char
  | none, [] => []
  | some b, [] => b.reverse
  | none, c :: rest =>
    if c = '<' then removeTagsAux (some ['<']) rest
    else c :: removeTagsAux none rest
  | some b, c :: rest =>
    if c = '>' then
      if 2 ≤ b.length then ' ' :: removeTagsAux none rest
      else b.reverse ++ '>' :: removeTagsAux none rest
    else removeTagsAux (some (c :: b)) rest

/-- `re.sub(r'<[^>]+>', ' ', s)`. -/
def removeTags (l : List Char) : List Char :=
  removeTagsAux none l

/-- `re.sub(r'\s+', ' ', s)`: each maximal whitespace run becomes one space.
`prevSpace` records whether the previous character was part of a run. -/
def collapseAux (prevSpace : Bool) : List Char → List Char
  | [] => []
  | c :: rest =>
    if isSpace c then
      if prevSpace then collapseAux true rest else ' ' :: collapseAux true rest
    else c :: collapseAux false rest

/-- `re.sub(r'\s+', ' ', s)`. -/
def collapseWS (l : List Char) : List Char :=
  collapseAux false l

/-- `str.lstrip()` (whitespace). -/
def lstrip (l : List Char) : List Char := l.dropWhile isSpace

/-- `str.rstrip()` (whitespace). -/
def rstrip (l : List Char) : List Char := (l.reverse.dropWhile isSpace).reverse

/-- `str.strip()` (whitespace). -/
def pyStrip (l : List Char) : List Char := rstrip (lstrip l)

/-- The triple returned by `strip_html`. -/
structure StrippedHtml where
  text : List Char
  links : List (List Char)
  images : List (List Char)
  deriving Repr, DecidableEq, Inhabited

/-- `strip_html` (process.py lines 8–26). -/
def strip_html (html_content : List Char) : StrippedHtml :=
  let h1 := removeStyle (removeScript html_content)
  { text := pyStrip (collapseWS (removeTags h1))
    links := findAttrs "href=".data h1
    images := findAttrs "src=".data h1 }

/-!
## `count_statistics` (process.py lines 28–55) and rounding
-/

/-- Python's `round` on an integer-valued dividend: round `q` half-to-even
to an integer (the `ℚ` model of float `round`). -/
def pyRoundInt (q : ℚ) : ℤ :=
  let f : ℤ := ⌊q⌋
  let r : ℚ := q - f
  if r < 1/2 then f
  else if 1/2 < r then f + 1
  else if Even f then f else f + 1

/-- Python's `round(x, n)` over `ℚ`. -/
def pyRound (n : ℕ) (q : ℚ) : ℚ :=
  (pyRoundInt (q * 10 ^ n) : ℚ) / 10 ^ n

/-- `str.split()`: maximal runs of non-whitespace, no empty tokens.
`cur` is the current (reversed) token. -/
def wsSplitAux (cur : List Char) : List Char → List (List Char)
  | [] => if cur.isEmpty then [] else [cur.reverse]
  | c :: rest =>
    if isSpace c then
      if cur.isEmpty then wsSplitAux [] rest else cur.reverse :: wsSplitAux [] rest
    else wsSplitAux (c :: cur) rest

/-- `str.split()`. -/
def pyWords (l : List Char) : List (List Char) := wsSplitAux [] l

/-- `re.split(r'[C]+', s)` for a character class `p`: segments between
maximal runs of class characters (empty segments included, as `re.split`
produces them).  `inDelim` records whether the previous character belonged
to a run. -/
def splitRunsAux (p : Char → Bool) (inDelim : Bool) (cur : List Char) :
    List Char → List (List Char)
  | [] => [cur.reverse]
  | c :: rest =>
    if p c then
      if inDelim then splitRunsAux p true [] rest
      else cur.reverse :: splitRunsAux p true [] rest
    else splitRunsAux p false (c :: cur) rest

/-- `re.split(r'[.!?]+', s)`. -/
def splitSentences (l : List Char) : List (List Char) :=
  splitRunsAux (fun c => c = '.' || c = '!' || c = '?') false [] l

/-- `re.split(r'\n\s*\n', s)`.  A match is a newline, then the greedy `\s*`
backtracked to end at the **last** newline of the whitespace run that
follows (so whitespace after that last newline belongs to the next
segment); a run with a single newline is no match.  `ws` is `some buf`
while scanning a whitespace run that began with a newline (`buf` reversed). -/
def paraAux (cur : List Char) (ws : Option (List Char)) :
    List Char → List (List Char)
  | [] =>
    match ws with
    | none => [cur.reverse]
    | some buf =>
      if 2 ≤ buf.count '\n' then
        [cur.reverse, (buf.takeWhile (fun c => ¬ c = '\n')).reverse]
      else [(buf ++ cur).reverse]
  | c :: rest =>
    match ws with
    | none =>
      if c = '\n' then paraAux cur (some ['\n']) rest
      else paraAux (c :: cur) none rest
    | some buf =>
      if isSpace c then paraAux cur (some (c :: buf)) rest
      else
        if 2 ≤ buf.count '\n' then
          cur.reverse :: paraAux (c :: buf.takeWhile (fun x => ¬ x = '\n')) none rest
        else paraAux (c :: (buf ++ cur)) none rest

/-- `re.split(r'\n\s*\n', s)`. -/
def splitParagraphs (l : List Char) : List (List Char) :=
  paraAux [] none l

/-- The dictionary returned by `count_statistics`. -/
structure Statistics where
  word_count : ℕ
  sentence_count : ℕ
  paragraph_count : ℕ
  avg_word_length : ℚ
  deriving Repr, DecidableEq, Inhabited

/-- `count_statistics` (process.py lines 28–55). -/
def count_statistics (text : List Char) : Statistics :=
  let words := pyWords text
  let word_count := words.length
  let sentences := (splitSentences text).map pyStrip |>.filter (fun s => !s.isEmpty)
  let paragraphs := (splitParagraphs text).map pyStrip |>.filter (fun p => !p.isEmpty)
  let awl : ℚ :=
    if 0 < word_count then ((words.map List.length).sum : ℚ) / word_count else 0
  { word_count := word_count
    sentence_count := sentences.length
    paragraph_count := paragraphs.length
    avg_word_length := pyRound 2 awl }

/-!
## `jaccard_similarity` (analyze.py lines 9–15)

```python
def jaccard_similarity(doc1_words, doc2_words):
    set1 = set(doc1_words); set2 = set(doc2_words)
    intersection = set1.intersection(set2)
    union = set1.union(set2)
    return len(intersection) / len(union) if union else 0.0
```
-/

def jaccard_similarity (doc1_words doc2_words : List (List Char)) : ℚ :=
  let set1 := doc1_words.toFinset
  let set2 := doc2_words.toFinset
  let inter := set1 ∩ set2
  let union := set1 ∪ set2
  if union = ∅ then 0 else (inter.card : ℚ) / union.card

/-!
## `calculate_readability_metrics` (analyze.py lines 34–83)
-/

/-- The regex class `[aeiouy]`. -/
def isVowelY (c : Char) : Bool :=
  c = 'a' || c = 'e' || c = 'i' || c = 'o' || c = 'u' || c = 'y'

/-- `len(re.findall(r'[aeiouy]+', word))`: the number of maximal
vowel-group runs.  `inRun` records whether the previous character was a
vowel. -/
def vowelRunsAux (inRun : Bool) : List Char → ℕ
  | [] => 0
  | c :: rest =>
    if isVowelY c then
      if inRun then vowelRunsAux true rest else 1 + vowelRunsAux true rest
    else vowelRunsAux false rest

/-- Number of maximal `[aeiouy]+` runs in a word. -/
def vowelRuns (w : List Char) : ℕ := vowelRunsAux false w

/-- Per-word syllable estimate: vowel-group runs, floored at 1. -/
def syllableCount (w : List Char) : ℕ :=
  let n := vowelRuns w
  if n = 0 then 1 else n

/-- Sentences of one text as counted by the analyzer (and by
`count_statistics`): non-empty stripped segments of `re.split(r'[.!?]+', ·)`. -/
def sentenceCount (text : List Char) : ℕ :=
  (((splitSentences text).map pyStrip).filter (fun s => !s.isEmpty)).length

/-- Corpus totals accumulated by `calculate_readability_metrics`. -/
def totalSentences (all_texts : List (List Char)) : ℕ :=
  (all_texts.map sentenceCount).sum

def totalWords (all_texts : List (List Char)) : ℕ :=
  (all_texts.map (fun t => (tokenize_text t).length)).sum

def totalChars (all_texts : List (List Char)) : ℕ :=
  (all_texts.map (fun t => ((tokenize_text t).map List.length).sum)).sum

def totalSyllables (all_texts : List (List Char)) : ℕ :=
  (all_texts.map (fun t => ((tokenize_text t).map syllableCount).sum)).sum

/-- The dictionary returned by `calculate_readability_metrics`. -/
structure Readability where
  avg_sentence_length : ℚ
  avg_word_length : ℚ
  complexity_score : ℚ
  deriving Repr, DecidableEq, Inhabited

/-- `calculate_readability_metrics` (analyze.py lines 34–83): one pooled
computation over the whole corpus. -/
def calculate_readability_metrics (all_texts : List (List Char)) : Readability :=
  let ts : ℕ := totalSentences all_texts
  let tw : ℕ := totalWords all_texts
  let tc : ℕ := totalChars all_texts
  let tsyl : ℕ := totalSyllables all_texts
  let avg_sentence_length : ℚ := if 0 < ts then (tw : ℚ) / ts else 0
  let avg_word_length : ℚ := if 0 < tw then (tc : ℚ) / tw else 0
  let avg_syllables_per_word : ℚ := if 0 < tw then (tsyl : ℚ) / tw else 0
  let complexity_score : ℚ :=
    if 0 < avg_sentence_length ∧ 0 < avg_syllables_per_word then
      206835/1000 - (1015/1000 * avg_sentence_length) - (846/10 * avg_syllables_per_word)
    else 0
  { avg_sentence_length := pyRound 2 avg_sentence_length
    avg_word_length := pyRound 2 avg_word_length
    complexity_score := pyRound 2 complexity_score }

/-!
## `analyze_corpus` and `calculate_document_similarities`
(analyze.py lines 85–154)
-/

/-- One artifact written by the processor (`ProcessedDocument`): the JSON
record the analyzer reads back.  The `processed_at` timestamp is real time,
outside the model. -/
structure ProcessedDoc where
  source_file : List Char
  text : List Char
  statistics : Statistics
  links : List (List Char)
  images : List (List Char)
  deriving Repr, DecidableEq, Inhabited

/-- One entry of `documents_data` built by `analyze_corpus`. -/
structure DocData where
  filename : List Char
  words : List (List Char)
  word_count : ℕ
  deriving Repr, DecidableEq, Inhabited

/-- One item of the processor's completion record (`results`).  A success
item carries word/link/image counts; a failed item only the names. -/
inductive ProcItem where
  | success (source_file output_file : List Char)
      (word_count link_count image_count : ℕ)
  | failed (source_file output_file : List Char)
  deriving Repr, DecidableEq, Inhabited

def ProcItem.status : ProcItem → List Char
  | .success .. => "success".data
  | .failed .. => "failed".data

def ProcItem.source_file : ProcItem → List Char
  | .success s _ _ _ _ => s
  | .failed s _ => s

def ProcItem.output_file : ProcItem → List Char
  | .success _ o _ _ _ => o
  | .failed _ o => o

/-- The analyzer's view of the processed-documents directory: file name to
content, `none` when reading/parsing the file fails. -/
def ProcessedStore := List Char → Option ProcessedDoc

/-- `analyze_corpus` (analyze.py lines 85–133), restricted to the fields the
report uses downstream: for every `success` item, load its document; a
document that fails to load is skipped.  Returns `all_texts` and
`documents_data` in processing order (`all_words` is their concatenation). -/
def analyze_corpus (processed_files : List ProcItem) (store : ProcessedStore) :
    List (List Char) × List DocData :=
  let loaded := processed_files.filterMap (fun item =>
    if item.status = "success".data then
      match store item.output_file with
      | some d => some (item.output_file, d.text)
      | none => none
    else none)
  (loaded.map (fun p => p.2),
   loaded.map (fun p =>
     { filename := p.1
       words := tokenize_text p.2
       word_count := (tokenize_text p.2).length }))

/-- One entry of `document_similarity`. -/
structure SimEntry where
  doc1 : List Char
  doc2 : List Char
  similarity : ℚ
  deriving Repr, DecidableEq, Inhabited

/-- The index pairs enumerated by the two nested loops
`for i in range(n): for j in range(i+1, n):`. -/
def simIndexPairs (n : ℕ) : List (ℕ × ℕ) :=
  (List.range n).flatMap (fun i =>
    ((List.range n).drop (i + 1)).map (fun j => (i, j)))

/-- `calculate_document_similarities` (analyze.py lines 135–154). -/
def calculate_document_similarities (documents_data : List DocData) :
    List SimEntry :=
  (simIndexPairs documents_data.length).map (fun p =>
    let d1 := documents_data.getD p.1 ⟨[], [], 0⟩
    let d2 := documents_data.getD p.2 ⟨[], [], 0⟩
    { doc1 := d1.filename
      doc2 := d2.filename
      similarity := pyRound 4 (jaccard_similarity d1.words d2.words) })

/-!
## Stage records and the two `main` loops
-/

/-- One item of the fetch stage's completion record, as the processor reads
it: `{file: name, status: success|failed}`. -/
structure FetchItem where
  file : List Char
  status : List Char
  deriving Repr, DecidableEq, Inhabited

/-- The raw-documents directory (`/shared/raw`): name to HTML content,
`none` when the file cannot be read. -/
def RawStore := List Char → Option (List Char)

/-- `source_file.replace('.html', '.json')`, fuel-structural: every
occurrence replaced, scanning left to right. -/
def replaceHtmlJsonFuel : ℕ → List Char → List Char
  | 0, l => l
  | _ + 1, [] => []
  | fuel + 1, c :: rest =>
    if ".html".data.isPrefixOf (c :: rest) then
      ".json".data ++ replaceHtmlJsonFuel fuel ((c :: rest).drop 5)
    else c :: replaceHtmlJsonFuel fuel rest

def replaceHtmlJson (l : List Char) : List Char :=
  replaceHtmlJsonFuel l.length l

/-- `process_html_file` (process.py lines 57–88) on the content of one
readable file: build the `ProcessedDocument`.  (Reading failure is the
`none` of the caller's store lookup; writes are modelled in
`process_main_outputs`.) -/
def process_html_file (source_file : List Char) (content : List Char) :
    ProcessedDoc :=
  let s := strip_html content
  { source_file := source_file
    text := s.text
    statistics := count_statistics s.text
    links := s.links
    images := s.images }

/-- The processor's completion record (`process_complete.json`). -/
structure ProcStatus where
  files_processed : ℕ
  successful : ℕ
  failed : ℕ
  results : List ProcItem
  deriving Repr, DecidableEq, Inhabited

/-- The per-item step of the processor `main` loop (process.py lines
113–141): read the raw file; on success write the output and record counts,
on failure record a failed item. -/
def processItem (raw : RawStore) (r : FetchItem) : ProcItem :=
  let out := replaceHtmlJson r.file
  match raw r.file with
  | some content =>
    let d := process_html_file r.file content
    .success r.file out d.statistics.word_count d.links.length d.images.length
  | none => .failed r.file out

/-- Processor `main` (process.py lines 90–156): process every `success`
item of the fetch record, then write the completion record with aggregate
counts. -/
def process_main (fetch_results : List FetchItem) (raw : RawStore) :
    ProcStatus :=
  let successful_files := fetch_results.filter (fun r => r.status = "success".data)
  let results := successful_files.map (processItem raw)
  { files_processed := results.length
    successful := (results.filter (fun r => r.status = "success".data)).length
    failed := (results.filter (fun r => r.status = "failed".data)).length
    results := results }

/-- The processed-documents directory after the processor `main` loop, as
an association list: each successful item writes its document (atomically,
later writes in front so that `lookup` sees the latest). -/
def process_main_outputs (fetch_results : List FetchItem) (raw : RawStore) :
    List (List Char × ProcessedDoc) :=
  let successful_files := fetch_results.filter (fun r => r.status = "success".data)
  successful_files.foldl (fun acc r =>
    match raw r.file with
    | some content =>
      (replaceHtmlJson r.file, process_html_file r.file content) :: acc
    | none => acc) []

/-- The final report (`final_report.json`), restricted to the fields the
claims are about (the two top-K rankings are omitted). -/
structure Report where
  documents_processed : ℕ
  total_words : ℕ
  unique_words : ℕ
  document_similarity : List SimEntry
  readability : Readability
  deriving Repr, DecidableEq, Inhabited

/-- Analyzer `main` (analyze.py lines 157–233): with zero successful
upstream items it returns without writing a report (`none`); otherwise it
writes one report. -/
def analyze_main (process_results : List ProcItem) (store : ProcessedStore) :
    Option Report :=
  let successful_files := process_results.filter (fun r => r.status = "success".data)
  if successful_files.isEmpty then none
  else
    let corpus := analyze_corpus successful_files store
    let all_texts := corpus.1
    let documents_data := corpus.2
    let all_words := (documents_data.map DocData.words).flatten
    some
      { documents_processed := successful_files.length
        total_words := all_words.length
        unique_words := all_words.toFinset.card
        document_similarity := calculate_document_similarities documents_data
        readability := calculate_readability_metrics all_texts }

/-!
# Claims
-/

/-!
## C1 — tokenization
-/

/-- Key lemma for C1: on text whose lower-cased form contains no digits and
no underscores, the `\b[a-zA-Z]+\b` scanner agrees with the plain
maximal-alphabetic-run splitter (every boundary check of the scanner
succeeds). -/
theorem tokenizeAux_eq_alphaRunsAux :
    ∀ (m : List Char) (cur : List Char),
      (∀ c ∈ m, isAsciiDigit c = false ∧ c ≠ '_') →
      tokenizeAux true cur m = alphaRunsAux cur m := by
  intro m
  induction m with
  | nil =>
    intro cur _
    simp only [tokenizeAux, alphaRunsAux, Bool.true_and]
    cases h : cur.isEmpty <;> simp [h]
  | cons c rest ih =>
    intro cur h
    have hc := h c (List.mem_cons_self c rest)
    have hrest : ∀ x ∈ rest, isAsciiDigit x = false ∧ x ≠ '_' :=
      fun x hx => h x (List.mem_cons_of_mem c hx)
    by_cases ha : isAsciiAlpha c = true
    · simp only [tokenizeAux, alphaRunsAux, ha, if_pos]
      exact ih (c :: cur) hrest
    · have hw : isWordChar c = false := by
        simp only [isWordChar, Bool.or_eq_false_iff]
        refine ⟨⟨by simpa using ha, hc.1⟩, ?_⟩
        simpa [decide_eq_false_iff_not] using hc.2
      have ha' : isAsciiAlpha c = false := by simpa using ha
      cases hcur : cur.isEmpty <;>
        simp [tokenizeAux, alphaRunsAux, ha', hw, hcur, ih [] hrest]

/-- Claim C1 (corrected), counterexample: the claim predicts that
`"abc123 def"` tokenizes to `["abc", "def"]`, but `tokenize_text` drops the
run `abc` because it is adjacent to a digit (the regex `\b` boundary fails
between `c` and `1`); the result is `["def"]`. -/
theorem tokenize_text_digits_cex :
    tokenize_text "abc123 def".data = ["def".data] ∧
      tokenize_text "abc123 def".data ≠ ["abc".data, "def".data] := by
  constructor
  · decide
  · decide

/-- Claim C1 (corrected), amended: for every input text whose lower-cased
form contains no digit and no underscore, `tokenize_text` returns exactly
the lower-cased maximal runs of alphabetic characters in document order
(punctuation and whitespace act as word boundaries).  A maximal alphabetic
run adjacent to a digit or underscore is dropped entirely rather than
bounded (regex `\b` fails between two word characters), so
`"abc123 def"` yields `["def"]`, not `["abc", "def"]`. -/
theorem tokenize_text_alpha_runs :
    ∀ text : List Char,
      (∀ c ∈ text.map pyLower, isAsciiDigit c = false ∧ c ≠ '_') →
      tokenize_text text = alphaRunsSpec (text.map pyLower) :=
  fun text h => tokenizeAux_eq_alphaRunsAux (text.map pyLower) [] h

/-- Witness for C1's amended theorem at a concrete input. -/
theorem tokenize_text_alpha_runs_witness :
    (∀ c ∈ "Hello, World!".data.map pyLower, isAsciiDigit c = false ∧ c ≠ '_') ∧
      tokenize_text "Hello, World!".data =
        alphaRunsSpec ("Hello, World!".data.map pyLower) :=
  ⟨by decide, tokenize_text_alpha_runs "Hello, World!".data (by decide)⟩

/-!
## C6 — Jaccard similarity
-/

/-- Claim C6 (corrected), counterexample: two empty token lists have
identical distinct-token sets, yet their similarity is `0`, not `1.0`
(the empty-union branch wins). -/
theorem jaccard_empty_sets_cex :
    (List.toFinset ([] : List (List Char))) = (List.toFinset ([] : List (List Char))) ∧
      jaccard_similarity [] [] ≠ 1 := by
  exact ⟨rfl, by decide⟩

/-- Claim C6 (corrected), amended: `jaccard_similarity` is symmetric; two
token lists with identical **non-empty** distinct-token sets have
similarity `1`; disjoint vocabularies that are not both empty have
similarity `0`; and an empty union gives `0` (so two empty documents get
`0`, not `1`). -/
theorem jaccard_similarity_props :
    ∀ A B : List (List Char),
      jaccard_similarity A B = jaccard_similarity B A ∧
      (A.toFinset = B.toFinset → A.toFinset.Nonempty →
        jaccard_similarity A B = 1) ∧
      (Disjoint A.toFinset B.toFinset → (A.toFinset ∪ B.toFinset).Nonempty →
        jaccard_similarity A B = 0) ∧
      (A.toFinset ∪ B.toFinset = ∅ → jaccard_similarity A B = 0) := by
  intro A B
  refine ⟨?_, ?_, ?_, ?_⟩
  · simp only [jaccard_similarity]
    rw [Finset.inter_comm, Finset.union_comm]
  · intro hEq hNe
    simp only [jaccard_similarity]
    rw [← hEq, Finset.inter_self, Finset.union_self,
      if_neg (Finset.nonempty_iff_ne_empty.mp hNe)]
    exact div_self (Nat.cast_ne_zero.mpr (Finset.card_ne_zero.mpr hNe))
  · intro hDisj hNe
    simp only [jaccard_similarity]
    rw [Finset.disjoint_iff_inter_eq_empty.mp hDisj,
      if_neg (Finset.nonempty_iff_ne_empty.mp hNe)]
    simp
  · intro hEmpty
    simp only [jaccard_similarity]
    rw [if_pos hEmpty]

/-- Witness for C6's amended theorem at concrete inputs: a document and its
copy, and two disjoint one-word documents. -/
theorem jaccard_similarity_props_witness :
    jaccard_similarity ["a".data, "b".data] ["b".data, "a".data, "a".data] = 1 ∧
      jaccard_similarity ["a".data] ["b".data] = 0 := by
  constructor
  · exact (jaccard_similarity_props ["a".data, "b".data]
      ["b".data, "a".data, "a".data]).2.1 (by decide) ⟨"a".data, by decide⟩
  · exact (jaccard_similarity_props ["a".data] ["b".data]).2.2.1 (by decide)
      ⟨"a".data, by decide⟩

/-!
## C5 — pooled readability metrics
-/

/-- Every word is estimated at one syllable or more. -/
theorem one_le_syllableCount (w : List Char) : 1 ≤ syllableCount w := by
  unfold syllableCount
  cases h : vowelRuns w <;> simp [h]

/-- A word list has at least as many total syllables as words. -/
theorem length_le_sum_syllables (ws : List (List Char)) :
    ws.length ≤ (ws.map syllableCount).sum := by
  induction ws with
  | nil => simp
  | cons w rest ih =>
    simp only [List.length_cons, List.map_cons, List.sum_cons]
    have := one_le_syllableCount w
    omega

/-- Corpus-wide: total syllables dominate total words. -/
theorem totalWords_le_totalSyllables (all_texts : List (List Char)) :
    totalWords all_texts ≤ totalSyllables all_texts := by
  unfold totalWords totalSyllables
  induction all_texts with
  | nil => simp
  | cons t rest ih =>
    simp only [List.map_cons, List.sum_cons]
    have := length_le_sum_syllables (tokenize_text t)
    omega

/-- Rounding fixes zero. -/
theorem pyRound_zero (n : ℕ) : pyRound n (0 : ℚ) = 0 := by
  simp [pyRound, pyRoundInt]

/-- Claim C5 (confirmed): the readability metrics are one pooled corpus
quantity.  With at least one word and one sentence in the corpus, the
reported `complexity_score` is `round(206.835 − 1.015·(W/S) −
84.6·(Syl/W), 2)` where `W`, `S`, `Syl` are the corpus totals, and
`avg_sentence_length` is `round(W/S, 2)`; a corpus with zero total words
reports `complexity_score = 0`; and each word's syllable estimate is its
number of maximal `[aeiouy]` vowel-group runs floored at 1. -/
theorem readability_pooled (all_texts : List (List Char)) :
    (0 < totalWords all_texts → 0 < totalSentences all_texts →
      (calculate_readability_metrics all_texts).complexity_score =
        pyRound 2 (206835/1000
          - 1015/1000 * ((totalWords all_texts : ℚ) / totalSentences all_texts)
          - 846/10 * ((totalSyllables all_texts : ℚ) / totalWords all_texts)) ∧
      (calculate_readability_metrics all_texts).avg_sentence_length =
        pyRound 2 ((totalWords all_texts : ℚ) / totalSentences all_texts)) ∧
    (totalWords all_texts = 0 →
      (calculate_readability_metrics all_texts).complexity_score = 0) ∧
    (∀ w : List Char, syllableCount w = max 1 (vowelRuns w)) := by
  refine ⟨?_, ?_, ?_⟩
  · intro hw hs
    have hts : (0:ℚ) < (totalSentences all_texts : ℚ) := by exact_mod_cast hs
    have htw : (0:ℚ) < (totalWords all_texts : ℚ) := by exact_mod_cast hw
    have hsyl : 0 < totalSyllables all_texts :=
      lt_of_lt_of_le hw (totalWords_le_totalSyllables all_texts)
    have h1 : (0:ℚ) < (totalWords all_texts : ℚ) / totalSentences all_texts :=
      div_pos htw hts
    have h2 : (0:ℚ) < (totalSyllables all_texts : ℚ) / totalWords all_texts :=
      div_pos (by exact_mod_cast hsyl) htw
    constructor
    · simp [calculate_readability_metrics, hs, hw, h1, h2]
    · simp [calculate_readability_metrics, hs, hw]
  · intro h0
    simp [calculate_readability_metrics, h0, pyRound_zero]
  · intro w
    unfold syllableCount
    cases h : vowelRuns w <;> simp [h]

/-- Witness for C5 at a concrete two-sentence corpus. -/
theorem readability_pooled_witness :
    0 < totalWords ["One two. Three!".data] ∧
      0 < totalSentences ["One two. Three!".data] ∧
      (calculate_readability_metrics ["One two. Three!".data]).complexity_score =
        pyRound 2 (206835/1000
          - 1015/1000 * ((totalWords ["One two. Three!".data] : ℚ) /
              totalSentences ["One two. Three!".data])
          - 846/10 * ((totalSyllables ["One two. Three!".data] : ℚ) /
              totalWords ["One two. Three!".data])) :=
  ⟨by decide, by decide,
    ((readability_pooled ["One two. Three!".data]).1 (by decide) (by decide)).1⟩

/-!
## C4 — pairwise similarity enumeration
-/

/-- Gauss sum for the nested loops: `Σ_{i<n} (n - (i+1)) = n(n-1)/2`
(stated doubled to stay in `ℕ`). -/
theorem simIndexPairs_sum_aux :
    ∀ n : ℕ, ((List.range n).map (fun i => n - (i + 1))).sum * 2 = n * (n - 1) := by
  intro n
  induction n with
  | zero => rfl
  | succ n ih =>
    rw [List.range_succ_eq_map]
    simp only [List.map_cons, List.sum_cons, List.map_map]
    have hfun : ((fun i => n + 1 - (i + 1)) ∘ Nat.succ) = fun i => n - (i + 1) :=
      funext fun i => by
        simp only [Function.comp_apply]
        omega
    rw [hfun]
    have key : n * (n - 1) + 2 * n = n * (n + 1) := by
      cases n with
      | zero => rfl
      | succ m => simp only [Nat.succ_sub_one]; ring
    have hz : n + 1 - (0 + 1) = n := by omega
    rw [hz]
    calc (n + ((List.range n).map (fun i => n - (i + 1))).sum) * 2
        = ((List.range n).map (fun i => n - (i + 1))).sum * 2 + 2 * n := by ring
      _ = n * (n - 1) + 2 * n := by rw [ih]
      _ = n * (n + 1) := key
      _ = (n + 1) * (n + 1 - 1) := by rw [Nat.succ_sub_one, Nat.mul_comm]

/-- The nested loops enumerate exactly `n(n-1)/2` index pairs. -/
theorem simIndexPairs_length (n : ℕ) :
    (simIndexPairs n).length = n * (n - 1) / 2 := by
  have h2 : (simIndexPairs n).length * 2 = n * (n - 1) := by
    rw [simIndexPairs, List.length_flatMap]
    have hmap : List.map
        (List.length ∘ fun i => ((List.range n).drop (i + 1)).map (fun j => (i, j)))
        (List.range n) = (List.range n).map (fun i => n - (i + 1)) := by
      apply List.map_congr_left
      intro i _
      simp [List.length_drop]
    rw [hmap, simIndexPairs_sum_aux]
  omega

/-- Every enumerated index pair is canonical: `i < j < n`. -/
theorem simIndexPairs_mem {n : ℕ} {p : ℕ × ℕ} (hp : p ∈ simIndexPairs n) :
    p.1 < p.2 ∧ p.2 < n := by
  rw [simIndexPairs, List.mem_flatMap] at hp
  obtain ⟨i, _, hp⟩ := hp
  rw [List.mem_map] at hp
  obtain ⟨j, hj, rfl⟩ := hp
  rw [List.mem_iff_getElem] at hj
  obtain ⟨t, ht, rfl⟩ := hj
  rw [List.getElem_drop, List.getElem_range]
  have hlen := ht
  rw [List.length_drop, List.length_range] at hlen
  exact ⟨by omega, by omega⟩

/-- The pair enumeration is strictly increasing in the lexicographic
order on `(i, j)` — the fixed canonical order of the two nested loops. -/
theorem simIndexPairs_pairwise (n : ℕ) :
    (simIndexPairs n).Pairwise
      (fun p q => p.1 < q.1 ∨ (p.1 = q.1 ∧ p.2 < q.2)) := by
  rw [simIndexPairs, List.pairwise_flatMap]
  constructor
  · intro i _
    rw [List.pairwise_map]
    exact ((List.pairwise_lt_range n).sublist (List.drop_sublist _ _)).imp
      (fun hab => Or.inr ⟨rfl, hab⟩)
  · refine (List.pairwise_lt_range n).imp ?_
    intro a b hab x hx y hy
    rw [List.mem_map] at hx hy
    obtain ⟨j1, _, rfl⟩ := hx
    obtain ⟨j2, _, rfl⟩ := hy
    exact Or.inl hab

/-- When every success item's artifact loads, `analyze_corpus` keeps one
`documents_data` entry per item. -/
theorem analyze_corpus_docs_length :
    ∀ (l : List ProcItem) (store : ProcessedStore),
      (∀ r ∈ l, r.status = "success".data) →
      (∀ r ∈ l, (store r.output_file).isSome = true) →
      ((analyze_corpus l store).2).length = l.length := by
  intro l store
  induction l with
  | nil => intro _ _; rfl
  | cons r rest ih =>
    intro h1 h2
    have hs := h1 r (List.mem_cons_self r rest)
    have hst := h2 r (List.mem_cons_self r rest)
    have ihr := ih (fun x hx => h1 x (List.mem_cons_of_mem r hx))
      (fun x hx => h2 x (List.mem_cons_of_mem r hx))
    simp only [analyze_corpus, List.length_map] at ihr ⊢
    rw [List.filterMap_cons]
    cases ho : store r.output_file with
    | none => rw [ho] at hst; simp at hst
    | some d => simp [hs, ho, ihr]

/-- Claim C4 (confirmed): when every success item of the process-completion
record loads (the data-model invariant of a success item), the final
report's `document_similarity` has exactly `n(n-1)/2` entries for `n`
success items, is empty when `n < 2`, and is enumerated along
`simIndexPairs n` — the canonical strictly-lexicographic `i < j` index
order of the two nested loops. -/
theorem document_similarity_canonical
    (process_results : List ProcItem) (store : ProcessedStore)
    (rep : Report) (n : ℕ)
    (hn : n = (process_results.filter
      (fun r => r.status = "success".data)).length)
    (hload : ∀ r ∈ process_results.filter
      (fun r => r.status = "success".data),
      (store r.output_file).isSome = true)
    (hrep : analyze_main process_results store = some rep) :
    rep.document_similarity.length = n * (n - 1) / 2 ∧
    (n < 2 → rep.document_similarity = []) ∧
    ((∀ p ∈ simIndexPairs n, p.1 < p.2 ∧ p.2 < n) ∧
      (simIndexPairs n).Pairwise
        (fun p q => p.1 < q.1 ∨ (p.1 = q.1 ∧ p.2 < q.2))) ∧
    rep.document_similarity =
      (simIndexPairs n).map (fun p =>
        let dd := (analyze_corpus (process_results.filter
          (fun r => r.status = "success".data)) store).2
        { doc1 := (dd.getD p.1 ⟨[], [], 0⟩).filename
          doc2 := (dd.getD p.2 ⟨[], [], 0⟩).filename
          similarity := pyRound 4 (jaccard_similarity
            (dd.getD p.1 ⟨[], [], 0⟩).words (dd.getD p.2 ⟨[], [], 0⟩).words) }) := by
  have hstat : ∀ r ∈ process_results.filter
      (fun r => r.status = "success".data), r.status = "success".data := by
    intro r hr
    have := (List.mem_filter.mp hr).2
    exact of_decide_eq_true this
  have hlen : ((analyze_corpus (process_results.filter
      (fun r => r.status = "success".data)) store).2).length = n := by
    rw [analyze_corpus_docs_length _ store hstat hload, hn]
  unfold analyze_main at hrep
  by_cases he : (process_results.filter
      (fun r => r.status = "success".data)).isEmpty
  · rw [if_pos he] at hrep
    exact absurd hrep (by simp)
  · rw [if_neg he] at hrep
    have hsim : rep.document_similarity =
        calculate_document_similarities ((analyze_corpus
          (process_results.filter (fun r => r.status = "success".data))
          store).2) := by
      rw [← Option.some_inj.mp hrep]
    have hmapeq : rep.document_similarity =
        (simIndexPairs n).map (fun p =>
          let dd := (analyze_corpus (process_results.filter
            (fun r => r.status = "success".data)) store).2
          { doc1 := (dd.getD p.1 ⟨[], [], 0⟩).filename
            doc2 := (dd.getD p.2 ⟨[], [], 0⟩).filename
            similarity := pyRound 4 (jaccard_similarity
              (dd.getD p.1 ⟨[], [], 0⟩).words (dd.getD p.2 ⟨[], [], 0⟩).words) }) := by
      rw [hsim]
      simp only [calculate_document_similarities, hlen]
    refine ⟨?_, ?_, ⟨fun p hp => simIndexPairs_mem hp, simIndexPairs_pairwise n⟩, hmapeq⟩
    · rw [hmapeq, List.length_map, simIndexPairs_length]
    · intro hn2
      rw [hmapeq]
      interval_cases n <;> rfl

/-- Concrete two-document completion record for the C4 witness. -/
def procResultsEx : List ProcItem :=
  [ProcItem.success "a.html".data "a.json".data 0 0 0,
   ProcItem.success "b.html".data "b.json".data 0 0 0]

/-- Concrete processed-documents store for the C4 witness. -/
def storeEx : ProcessedStore := fun f =>
  if f = "a.json".data then some ⟨"a.html".data, [], ⟨0, 0, 0, 0⟩, [], []⟩
  else if f = "b.json".data then some ⟨"b.html".data, [], ⟨0, 0, 0, 0⟩, [], []⟩
  else none

/-- The report the analyzer writes for `procResultsEx` over `storeEx`. -/
def reportEx : Report :=
  { documents_processed := 2, total_words := 0, unique_words := 0
    document_similarity :=
      [{ doc1 := "a.json".data, doc2 := "b.json".data, similarity := 0 }]
    readability := ⟨0, 0, 0⟩ }

/-- Witness for C4 at a concrete two-document corpus. -/
theorem document_similarity_canonical_witness :
    analyze_main procResultsEx storeEx = some reportEx ∧
      reportEx.document_similarity.length = 2 * (2 - 1) / 2 := by
  refine ⟨by with_unfolding_all decide, ?_⟩
  exact (document_similarity_canonical procResultsEx storeEx reportEx 2
    (by decide) (by decide) (by with_unfolding_all decide)).1

/-!
## C7 — per-item failure isolation in the processor
-/

/-- Every result item's status is `success` or `failed`. -/
theorem procItem_status_dichotomy (r : ProcItem) :
    r.status = "success".data ∨ r.status = "failed".data := by
  cases r with
  | success a b c d e => left; rfl
  | failed a b => right; rfl

/-- Counting a list by two mutually exclusive, exhaustive predicates. -/
theorem filter_length_add_of_dichotomy {a : Type} (p q : a → Bool) :
    ∀ l : List a,
      (∀ x ∈ l, (p x = true ∧ q x = false) ∨ (p x = false ∧ q x = true)) →
      (l.filter p).length + (l.filter q).length = l.length := by
  intro l
  induction l with
  | nil => intro _; rfl
  | cons x rest ih =>
    intro h
    have ihr := ih (fun y hy => h y (List.mem_cons_of_mem x hy))
    rw [List.filter_cons, List.filter_cons]
    rcases h x (List.mem_cons_self x rest) with ⟨h1, h2⟩ | ⟨h1, h2⟩
    · rw [if_pos h1, if_neg (by simp [h2])]
      simp only [List.length_cons]
      omega
    · rw [if_neg (by simp [h1]), if_pos h2]
      simp only [List.length_cons]
      omega

/-- Success and failure counts always add up to the item count. -/
theorem count_success_add_failed (l : List ProcItem) :
    (l.filter (fun r => r.status = "success".data)).length +
      (l.filter (fun r => r.status = "failed".data)).length = l.length := by
  apply filter_length_add_of_dichotomy
  intro x _
  cases x with
  | success a b c d e => exact Or.inl ⟨rfl, rfl⟩
  | failed a b => exact Or.inr ⟨rfl, rfl⟩

/-- Claim C7 (confirmed): the processor handles every success item of the
fetch record; each per-item outcome depends only on that item's own raw
file, a read failure yields a `failed` item in place (the batch is not
aborted), and the completion record's aggregate counts always satisfy
`successful + failed = files_processed = number of items handled`. -/
theorem processor_failure_isolation
    (fetch_results : List FetchItem) (raw raw2 : RawStore) :
    (process_main fetch_results raw).results.length =
      (fetch_results.filter (fun r => r.status = "success".data)).length ∧
    (process_main fetch_results raw).files_processed =
      (process_main fetch_results raw).results.length ∧
    (process_main fetch_results raw).successful +
      (process_main fetch_results raw).failed =
      (process_main fetch_results raw).files_processed ∧
    (∀ (k : ℕ) (r : FetchItem), (fetch_results.filter
        (fun r => r.status = "success".data))[k]? = some r →
      raw r.file = none →
      (process_main fetch_results raw).results[k]? =
        some (ProcItem.failed r.file (replaceHtmlJson r.file))) ∧
    (∀ (k : ℕ) (r : FetchItem), (fetch_results.filter
        (fun r => r.status = "success".data))[k]? = some r →
      raw r.file = raw2 r.file →
      (process_main fetch_results raw).results[k]? =
        (process_main fetch_results raw2).results[k]?) := by
  refine ⟨by simp [process_main], rfl, ?_, ?_, ?_⟩
  · exact count_success_add_failed _
  · intro k r hk hnone
    simp only [process_main, List.getElem?_map, hk, Option.map_some]
    simp [processItem, hnone]
  · intro k r hk hagree
    simp only [process_main, List.getElem?_map, hk, Option.map_some]
    simp [processItem, hagree]

/-- Witness for C7: a two-item batch where the first file is unreadable and
the second succeeds. -/
theorem processor_failure_isolation_witness :
    ([FetchItem.mk "a.html".data "success".data,
      FetchItem.mk "b.html".data "success".data].filter
        (fun r => r.status = "success".data))[0]? =
      some (FetchItem.mk "a.html".data "success".data) ∧
    (fun f => if f = "b.html".data then some "hi".data else none)
        ("a.html".data : List Char) = none ∧
    (process_main
        [FetchItem.mk "a.html".data "success".data,
         FetchItem.mk "b.html".data "success".data]
        (fun f => if f = "b.html".data then some "hi".data else none)).results[0]? =
      some (ProcItem.failed "a.html".data (replaceHtmlJson "a.html".data)) := by
  refine ⟨by decide, by decide, ?_⟩
  exact (processor_failure_isolation
      [FetchItem.mk "a.html".data "success".data,
       FetchItem.mk "b.html".data "success".data]
      (fun f => if f = "b.html".data then some "hi".data else none)
      (fun _ => none)).2.2.2.1 0 (FetchItem.mk "a.html".data "success".data) (by decide) (by decide)

/-!
## C9 — zero successful upstream items
-/

/-- Claim C9 (confirmed): with zero successful upstream items the processor
still writes a completion record with zero counts and no results
(`files_processed = 0`), and the analyzer returns without writing a report;
both stages are total functions of their inputs (nothing is raised). -/
theorem empty_upstream_soft_stop
    (fetch_results : List FetchItem) (raw : RawStore)
    (process_results : List ProcItem) (store : ProcessedStore) :
    (fetch_results.filter (fun r => r.status = "success".data) = [] →
      process_main fetch_results raw = ⟨0, 0, 0, []⟩) ∧
    (process_results.filter (fun r => r.status = "success".data) = [] →
      analyze_main process_results store = none) := by
  constructor
  · intro h
    simp [process_main, h]
  · intro h
    simp [analyze_main, h]

/-- Witness for C9: a fetch record whose only item failed, and a process
record whose only item failed. -/
theorem empty_upstream_soft_stop_witness :
    ([FetchItem.mk "a.html".data "failed".data].filter
        (fun r => r.status = "success".data) = []) ∧
    process_main [FetchItem.mk "a.html".data "failed".data] (fun _ => none) =
      ⟨0, 0, 0, []⟩ ∧
    ([ProcItem.failed "a.html".data "a.json".data].filter
        (fun r => r.status = "success".data) = []) ∧
    analyze_main [ProcItem.failed "a.html".data "a.json".data]
      (fun _ => none) = none := by
  refine ⟨by decide, ?_, by decide, ?_⟩
  · exact (empty_upstream_soft_stop [FetchItem.mk "a.html".data "failed".data]
      (fun _ => none) [] (fun _ => none)).1 (by decide)
  · exact (empty_upstream_soft_stop [] (fun _ => none)
      [ProcItem.failed "a.html".data "a.json".data] (fun _ => none)).2 (by decide)

/-!
## C8 — output artifacts of the processor
-/

/-- The output writes performed by the processor loop, in processing order:
one `(output name, document)` pair per readable success item. -/
def outPairs (raw : RawStore) (l : List FetchItem) :
    List (List Char × ProcessedDoc) :=
  l.filterMap (fun r => (raw r.file).map
    (fun c => (replaceHtmlJson r.file, process_html_file r.file c)))

/-- The processed directory is the reverse of the write list (later writes
shadow earlier ones under `lookup`). -/
theorem process_main_outputs_eq (fetch_results : List FetchItem)
    (raw : RawStore) :
    process_main_outputs fetch_results raw =
      (outPairs raw (fetch_results.filter
        (fun r => r.status = "success".data))).reverse := by
  unfold process_main_outputs
  have key : ∀ (l : List FetchItem) (acc : List (List Char × ProcessedDoc)),
      l.foldl (fun acc r =>
        match raw r.file with
        | some content =>
          (replaceHtmlJson r.file, process_html_file r.file content) :: acc
        | none => acc) acc = (outPairs raw l).reverse ++ acc := by
    intro l
    induction l with
    | nil => intro acc; simp [outPairs]
    | cons r rest ih =>
      intro acc
      rw [List.foldl_cons, ih]
      cases hr : raw r.file with
      | some c => simp [outPairs, hr]
      | none => simp [outPairs, hr]
  rw [key, List.append_nil]

/-- `lookup` misses exactly the keys that are absent. -/
theorem lookup_eq_none_iff (k : List Char) :
    ∀ l : List (List Char × ProcessedDoc),
      l.lookup k = none ↔ k ∉ l.map Prod.fst := by
  intro l
  induction l with
  | nil => simp
  | cons p rest ih =>
    obtain ⟨k', v⟩ := p
    rw [List.lookup_cons]
    cases h : k == k' with
    | true =>
      have : k = k' := by simpa using h
      simp [this]
    | false =>
      have : ¬ k = k' := by simpa using h
      simp [this, ih]

/-- With distinct keys, `lookup` finds any member pair. -/
theorem lookup_some_of_mem_nodup (k : List Char) (v : ProcessedDoc) :
    ∀ l : List (List Char × ProcessedDoc),
      (l.map Prod.fst).Nodup → (k, v) ∈ l → l.lookup k = some v := by
  intro l
  induction l with
  | nil => intro _ h; simp at h
  | cons p rest ih =>
    intro hnd hmem
    obtain ⟨k', v'⟩ := p
    rw [List.map_cons, List.nodup_cons] at hnd
    rw [List.lookup_cons]
    rcases List.mem_cons.mp hmem with heq | htail
    · obtain ⟨rfl, rfl⟩ := Prod.mk.injEq .. ▸ heq
      simp
    · have hk : ¬ k = k' := by
        intro rfl
        exact hnd.1 (List.mem_map.mpr ⟨(k, v), htail, rfl⟩)
      have : (k == k') = false := beq_eq_false_iff_ne.mpr hk
      rw [this]
      exact ih hnd.2 htail

/-- The write list's keys come from the success items' output names. -/
theorem outPairs_keys_sublist (raw : RawStore) :
    ∀ l : List FetchItem,
      ((outPairs raw l).map Prod.fst).Sublist
        (l.map (fun r => replaceHtmlJson r.file)) := by
  intro l
  induction l with
  | nil => simp [outPairs]
  | cons r rest ih =>
    cases hr : raw r.file with
    | some c =>
      simpa [outPairs, hr] using ih.cons₂ (replaceHtmlJson r.file)
    | none =>
      simpa [outPairs, hr] using ih.cons (replaceHtmlJson r.file)

/-- Concrete fetch record for the C8 counterexample: two success items
whose output names collide (`a.html → a.json`, and `a.json → a.json`
because `replace` finds no `.html` in it). -/
def fetchAliasEx : List FetchItem :=
  [FetchItem.mk "a.html".data "success".data,
   FetchItem.mk "a.json".data "success".data]

/-- Concrete raw store for the C8 counterexample: only `a.html` is
readable. -/
def rawAliasEx : RawStore :=
  fun f => if f = "a.html".data then some "x".data else none

/-- Claim C8 (corrected), counterexample: in `fetchAliasEx` the item for
`a.json` fails (its raw file is unreadable), yet an output artifact named
`a.json` exists — written by the *other*, successful item `a.html`, whose
output name collides with it.  So a `failed` item can carry an output
artifact when output names alias. -/
theorem output_artifact_alias_cex :
    (process_main fetchAliasEx rawAliasEx).results[1]? =
      some (ProcItem.failed "a.json".data "a.json".data) ∧
    (List.lookup "a.json".data
      (process_main_outputs fetchAliasEx rawAliasEx)).isSome = true := by
  constructor
  · with_unfolding_all decide
  · with_unfolding_all decide

/-- Claim C8 (corrected), amended: provided the output names of the fetch
record's success items are pairwise distinct, every item of the completion
record satisfies the artifact invariant: a `success` item's output file
exists and holds the fully written `ProcessedDocument` of its raw content,
and a `failed` item's output file does not exist.  (Writes are modelled as
atomic; without the distinct-names proviso a failed item can alias a
successful item's artifact, as in the counterexample.) -/
theorem output_artifact_invariant
    (fetch_results : List FetchItem) (raw : RawStore)
    (hnd : ((fetch_results.filter (fun r => r.status = "success".data)).map
      (fun r => replaceHtmlJson r.file)).Nodup) :
    ∀ item ∈ (process_main fetch_results raw).results,
      (item.status = "success".data →
        ∃ content, raw item.source_file = some content ∧
          List.lookup item.output_file
              (process_main_outputs fetch_results raw) =
            some (process_html_file item.source_file content)) ∧
      (item.status = "failed".data →
        List.lookup item.output_file
          (process_main_outputs fetch_results raw) = none) := by
  intro item hitem
  simp only [process_main, List.mem_map] at hitem
  obtain ⟨r, hr, rfl⟩ := hitem
  rw [process_main_outputs_eq]
  have hkeys : ((outPairs raw (fetch_results.filter
      (fun r => r.status = "success".data))).map Prod.fst).Nodup :=
    (outPairs_keys_sublist raw _).nodup hnd
  have hkeysnd : (((outPairs raw (fetch_results.filter
      (fun r => r.status = "success".data))).reverse.map Prod.fst)).Nodup := by
    rw [List.map_reverse, List.nodup_reverse]
    exact hkeys
  cases hraw : raw r.file with
  | some c =>
    have hsrc : (processItem raw r).source_file = r.file := by
      simp [processItem, hraw, ProcItem.source_file]
    have hout : (processItem raw r).output_file = replaceHtmlJson r.file := by
      simp [processItem, hraw, ProcItem.output_file]
    constructor
    · intro _
      refine ⟨c, ?_, ?_⟩
      · rw [hsrc]
        exact hraw
      · have hmem : (replaceHtmlJson r.file, process_html_file r.file c) ∈
            (outPairs raw (fetch_results.filter
              (fun r => r.status = "success".data))).reverse := by
          rw [List.mem_reverse]
          exact List.mem_filterMap.mpr ⟨r, hr, by rw [hraw]; rfl⟩
        have hl := lookup_some_of_mem_nodup (replaceHtmlJson r.file)
          (process_html_file r.file c) _ hkeysnd hmem
        rw [hsrc, hout]
        exact hl
    · intro hst
      simp only [processItem, hraw, ProcItem.status] at hst
      exact absurd hst (by decide)
  | none =>
    constructor
    · intro hst
      simp only [processItem, hraw, ProcItem.status] at hst
      exact absurd hst (by decide)
    · intro _
      have hout : (processItem raw r).output_file = replaceHtmlJson r.file := by
        simp [processItem, hraw, ProcItem.output_file]
      rw [hout, lookup_eq_none_iff]
      intro hkey
      rw [List.map_reverse, List.mem_reverse] at hkey
      obtain ⟨⟨k', v⟩, hmem, hfst⟩ := List.mem_map.mp hkey
      obtain ⟨r', hr', heq⟩ := List.mem_filterMap.mp hmem
      cases hraw' : raw r'.file with
      | none => rw [hraw'] at heq; simp at heq
      | some c' =>
        rw [hraw'] at heq
        have heq2 : (replaceHtmlJson r'.file, process_html_file r'.file c') =
            (k', v) := Option.some_inj.mp heq
        have hname : replaceHtmlJson r'.file = replaceHtmlJson r.file := by
          have hfst' : k' = replaceHtmlJson r.file := hfst
          rw [show replaceHtmlJson r'.file = k' from congrArg Prod.fst heq2, hfst']
        have : r' = r := List.inj_on_of_nodup_map hnd hr' hr hname
        rw [this, hraw] at hraw'
        exact absurd hraw' (by simp)

/-- Witness for C8's amended theorem: two success items with distinct
output names, the first readable and the second not. -/
theorem output_artifact_invariant_witness :
    (([FetchItem.mk "a.html".data "success".data,
       FetchItem.mk "b.html".data "success".data].filter
        (fun r => r.status = "success".data)).map
      (fun r => replaceHtmlJson r.file)).Nodup ∧
    (ProcItem.failed "b.html".data "b.json".data) ∈
      (process_main
        [FetchItem.mk "a.html".data "success".data,
         FetchItem.mk "b.html".data "success".data]
        (fun f => if f = "a.html".data then some "x".data else none)).results ∧
    (((ProcItem.failed "b.html".data "b.json".data).status = "failed".data) →
      List.lookup "b.json".data
        (process_main_outputs
          [FetchItem.mk "a.html".data "success".data,
           FetchItem.mk "b.html".data "success".data]
          (fun f => if f = "a.html".data then some "x".data else none)) = none) := by
  refine ⟨by decide, by with_unfolding_all decide, ?_⟩
  exact (output_artifact_invariant
    [FetchItem.mk "a.html".data "success".data,
     FetchItem.mk "b.html".data "success".data]
    (fun f => if f = "a.html".data then some "x".data else none)
    (by decide)
    (ProcItem.failed "b.html".data "b.json".data)
    (by with_unfolding_all decide)).2

/-!
## C2 — text output of `strip_html` and angle brackets
-/

/-- `tagSafe l`: after every `'<'` of `l`, either a `'>'` follows
immediately, or no `'>'` occurs later.  Equivalent to: `l` contains no
complete tag `<body>` with a non-empty, `'>'`-free body. -/
def tagSafe (l : List Char) : Prop :=
  ∀ a b, l = a ++ '<' :: b → b.head? = some '>' ∨ '>' ∉ b

theorem tagSafe_nil : tagSafe [] := by
  intro a b h
  exact absurd h (by simp)

/-- A list without `'>'` is vacuously tag-safe. -/
theorem tagSafe_of_not_mem {l : List Char} (h : '>' ∉ l) : tagSafe l := by
  intro a b hab
  right
  intro hb
  exact h (hab ▸ List.mem_append.mpr (Or.inr (List.mem_cons_of_mem _ hb)))

/-- Tag safety of a cons, split into the head condition and the tail. -/
theorem tagSafe_cons_iff {c : Char} {l : List Char} :
    tagSafe (c :: l) ↔
      (c = '<' → l.head? = some '>' ∨ '>' ∉ l) ∧ tagSafe l := by
  constructor
  · intro h
    refine ⟨fun hc => h [] l (by simp [hc]), ?_⟩
    intro a b hab
    exact h (c :: a) b (by rw [hab]; rfl)
  · rintro ⟨h1, h2⟩ a b hab
    cases a with
    | nil =>
      simp only [List.nil_append, List.cons.injEq] at hab
      exact hab.2 ▸ h1 hab.1
    | cons x a' =>
      simp only [List.cons_append, List.cons.injEq] at hab
      exact h2 a' b hab.2

theorem tagSafe.tail {c : Char} {l : List Char} (h : tagSafe (c :: l)) :
    tagSafe l :=
  (tagSafe_cons_iff.mp h).2

theorem tagSafe_cons_of_ne {c : Char} {l : List Char} (hc : c ≠ '<')
    (h : tagSafe l) : tagSafe (c :: l) :=
  tagSafe_cons_iff.mpr ⟨fun h' => absurd h' hc, h⟩

theorem tagSafe_lt_gt {l : List Char} (h : tagSafe l) :
    tagSafe ('<' :: '>' :: l) :=
  tagSafe_cons_iff.mpr ⟨fun _ => Or.inl rfl,
    tagSafe_cons_of_ne (by decide) h⟩

/-- The tag-stripping machine always produces tag-safe output, as long as
the buffer holds no `'>'` (it never does: buffered characters are exactly
`'<'` and the non-`'>'` body read so far). -/
theorem removeTagsAux_tagSafe :
    ∀ (l : List Char) (buf : Option (List Char)),
      (∀ b, buf = some b → '>' ∉ b) → tagSafe (removeTagsAux buf l) := by
  intro l
  induction l with
  | nil =>
    intro buf hbuf
    cases buf with
    | none => exact tagSafe_nil
    | some b =>
      have hout : removeTagsAux (some b) [] = b.reverse := rfl
      rw [hout]
      exact tagSafe_of_not_mem
        (fun hb => hbuf b rfl (List.mem_reverse.mp hb))
  | cons c rest ih =>
    intro buf hbuf
    cases buf with
    | none =>
      by_cases hc : c = '<'
      · simp only [removeTagsAux, if_pos hc]
        exact ih (some ['<']) (by intro b hb; cases hb; decide)
      · simp only [removeTagsAux, if_neg hc]
        exact tagSafe_cons_of_ne hc (ih none (by simp))
    | some b =>
      have hb : '>' ∉ b := hbuf b rfl
      by_cases hc : c = '>'
      · simp only [removeTagsAux, if_pos hc]
        by_cases hlen : 2 ≤ b.length
        · rw [if_pos hlen]
          exact tagSafe_cons_of_ne (by decide) (ih none (by simp))
        · rw [if_neg hlen]
          have hout := ih none (fun b hb => by simp at hb)
          match b, hb, hlen with
          | [], _, _ => exact tagSafe_cons_of_ne (by decide) hout
          | [x], hb1, _ =>
            by_cases hx : x = '<'
            · subst hx
              exact tagSafe_lt_gt hout
            · exact tagSafe_cons_of_ne hx
                (tagSafe_cons_of_ne (by decide) hout)
          | x :: y :: b', _, hlen2 => exact absurd (by simp) hlen2
      · simp only [removeTagsAux, if_neg hc]
        exact ih (some (c :: b)) (by
          intro b' hb'
          cases hb'
          intro hmem
          rcases List.mem_cons.mp hmem with h | h
          · exact hc h.symm
          · exact hb h)

/-- Characters of the collapsed text: a space, or a non-whitespace input
character. -/
theorem collapseAux_mem :
    ∀ (l : List Char) (prev : Bool) (c : Char),
      c ∈ collapseAux prev l → c = ' ' ∨ (c ∈ l ∧ isSpace c = false) := by
  intro l
  induction l with
  | nil => intro prev c h; simp [collapseAux] at h
  | cons x rest ih =>
    intro prev c h
    by_cases hx : isSpace x
    · rw [collapseAux, if_pos hx] at h
      by_cases hprev : prev
      · subst hprev
        rw [if_pos rfl] at h
        rcases ih true c h with h' | h'
        · exact Or.inl h'
        · exact Or.inr ⟨List.mem_cons_of_mem x h'.1, h'.2⟩
      · rw [if_neg (by simpa using hprev)] at h
        rcases List.mem_cons.mp h with h' | h'
        · exact Or.inl h'
        · rcases ih true c h' with h'' | h''
          · exact Or.inl h''
          · exact Or.inr ⟨List.mem_cons_of_mem x h''.1, h''.2⟩
    · rw [collapseAux, if_neg hx] at h
      rcases List.mem_cons.mp h with h' | h'
      · subst h'
        exact Or.inr ⟨List.mem_cons_self c rest, by simpa using hx⟩
      · rcases ih false c h' with h'' | h''
        · exact Or.inl h''
        · exact Or.inr ⟨List.mem_cons_of_mem x h''.1, h''.2⟩

/-- Whitespace collapsing preserves tag safety. -/
theorem collapseAux_tagSafe :
    ∀ (l : List Char) (prev : Bool), tagSafe l →
      tagSafe (collapseAux prev l) := by
  intro l
  induction l with
  | nil => intro prev _; exact tagSafe_nil
  | cons c rest ih =>
    intro prev h
    by_cases hc : isSpace c
    · rw [collapseAux, if_pos hc]
      by_cases hprev : prev
      · subst hprev
        rw [if_pos rfl]
        exact ih true h.tail
      · rw [if_neg (by simpa using hprev)]
        exact tagSafe_cons_of_ne (by decide) (ih true h.tail)
    · rw [collapseAux, if_neg hc]
      rcases tagSafe_cons_iff.mp h with ⟨h1, h2⟩
      by_cases hlt : c = '<'
      · subst hlt
        refine tagSafe_cons_iff.mpr ⟨fun _ => ?_, ih false h2⟩
        rcases h1 rfl with hh | hh
        · cases rest with
          | nil => simp at hh
          | cons y rest' =>
            have hy : y = '>' := by simpa using hh
            subst hy
            left
            rw [collapseAux, if_neg (by decide)]
            rfl
        · right
          intro hmem
          rcases collapseAux_mem rest false '>' hmem with h' | h'
          · exact absurd h' (by decide)
          · exact hh h'.1
      · exact tagSafe_cons_of_ne hlt (ih false h2)

/-- Dropping a prefix preserves tag safety. -/
theorem tagSafe_dropWhile {p : Char → Bool} :
    ∀ l : List Char, tagSafe l → tagSafe (l.dropWhile p) := by
  intro l
  induction l with
  | nil => intro h; exact h
  | cons c rest ih =>
    intro h
    rw [List.dropWhile_cons]
    by_cases hc : p c
    · rw [if_pos hc]
      exact ih h.tail
    · rw [if_neg hc]
      exact h

/-- Removing a suffix preserves tag safety. -/
theorem tagSafe_of_append {m s : List Char} (h : tagSafe (m ++ s)) :
    tagSafe m := by
  intro a b hab
  rcases h a (b ++ s) (by rw [hab]; simp) with hh | hh
  · cases b with
    | nil => simp [List.nil_append]
    | cons y b' =>
      left
      simpa using hh
  · right
    intro hb
    exact hh (List.mem_append.mpr (Or.inl hb))

/-- Any list splits as its `rstrip` plus a whitespace suffix. -/
theorem rstrip_append (l : List Char) :
    l = rstrip l ++ (l.reverse.takeWhile isSpace).reverse ∧
      ∀ c ∈ (l.reverse.takeWhile isSpace).reverse, isSpace c = true := by
  constructor
  · rw [rstrip, ← List.reverse_append, List.takeWhile_append_dropWhile,
      List.reverse_reverse]
  · intro c hc
    rw [List.mem_reverse] at hc
    exact List.mem_takeWhile_imp hc

/-- `strip` preserves tag safety. -/
theorem tagSafe_pyStrip {l : List Char} (h : tagSafe l) :
    tagSafe (pyStrip l) := by
  have h1 : tagSafe (lstrip l) := tagSafe_dropWhile l h
  obtain ⟨hsplit, -⟩ := rstrip_append (lstrip l)
  refine tagSafe_of_append (m := rstrip (lstrip l))
    (s := ((lstrip l).reverse.takeWhile isSpace).reverse) ?_
  rw [← hsplit]
  exact h1

/-- Claim C2 (corrected), counterexample: on the malformed input `"5 < 6"`
the text output of `strip_html` still contains the character `'<'` (the
lone bracket matches no tag and is kept verbatim). -/
theorem strip_html_lt_cex :
    (strip_html "5 < 6".data).text = "5 < 6".data ∧
      '<' ∈ (strip_html "5 < 6".data).text := by
  constructor
  · decide
  · decide

/-- Claim C2 (corrected), amended: `strip_html` is a total function (never
raises, also on malformed markup), and its text output contains no
*complete tag*: whenever the text reads `… '<' (b ++ '>' :: …)`, the body
`b` is empty or itself contains a `'>'` (i.e. no substring `<x>` with `x`
non-empty and `'>'`-free survives).  Stray `'<'`/`'>'` characters of
unmatched malformed markup may remain, as in the counterexample. -/
theorem strip_html_no_complete_tag (s : List Char) :
    ∀ a b c, (strip_html s).text = a ++ '<' :: (b ++ '>' :: c) →
      b = [] ∨ '>' ∈ b := by
  have hsafe : tagSafe (strip_html s).text := by
    have h0 : tagSafe (removeTagsAux none
        (removeStyle (removeScript s))) :=
      removeTagsAux_tagSafe _ none (by simp)
    exact tagSafe_pyStrip (collapseAux_tagSafe _ false h0)
  intro a b c habc
  rcases hsafe a (b ++ '>' :: c) habc with hh | hh
  · cases b with
    | nil => exact Or.inl rfl
    | cons y b' =>
      right
      have hy : y = '>' := by simpa using hh
      exact hy ▸ List.mem_cons_self y b'
  · exact absurd (List.mem_append.mpr (Or.inr (List.mem_cons_self '>' c))) hh

/-- Witness for C2's amended theorem: `"5 <> 6"` keeps the matchless pair
`<>` in its text, and the theorem applies to that decomposition with an
empty body. -/
theorem strip_html_no_complete_tag_witness :
    (strip_html "5 <> 6".data).text =
      "5 ".data ++ '<' :: (([] : List Char) ++ '>' :: " 6".data) ∧
      (([] : List Char) = [] ∨ '>' ∈ ([] : List Char)) :=
  ⟨by decide, strip_html_no_complete_tag "5 <> 6".data "5 ".data [] " 6".data
    (by decide)⟩

/-!
## C10 — paragraph count of processed documents
-/

/-- `strip` only keeps characters of its input. -/
theorem pyStrip_subset {c : Char} {l : List Char} (h : c ∈ pyStrip l) :
    c ∈ l := by
  unfold pyStrip rstrip lstrip at h
  rw [List.mem_reverse] at h
  have h1 := (List.dropWhile_sublist isSpace).subset h
  rw [List.mem_reverse] at h1
  exact (List.dropWhile_sublist isSpace).subset h1

/-- The cleaned text contains no newline: whitespace collapsing replaces
every whitespace character (including `'\n'`) with a plain space. -/
theorem strip_html_text_no_newline (s : List Char) :
    '\n' ∉ (strip_html s).text := by
  intro h
  have h1 := pyStrip_subset h
  rcases collapseAux_mem _ false '\n' h1 with h2 | h2
  · exact absurd h2 (by decide)
  · exact absurd h2.2 (by decide)

/-- On newline-free input the paragraph splitter never fires. -/
theorem paraAux_no_newline :
    ∀ (l cur : List Char), '\n' ∉ l →
      paraAux cur none l = [cur.reverse ++ l] := by
  intro l
  induction l with
  | nil => intro cur _; simp [paraAux]
  | cons c rest ih =>
    intro cur h
    have hc : ¬ c = '\n' := fun hc => h (hc ▸ List.mem_cons_self c rest)
    have hrest : '\n' ∉ rest := fun hr => h (List.mem_cons_of_mem c hr)
    rw [paraAux, if_neg hc, ih (c :: cur) hrest]
    simp

/-- If `dropWhile` leaves a head, the head fails the predicate. -/
theorem dropWhile_head_false {p : Char → Bool} :
    ∀ (l : List Char) (x : Char) (t : List Char),
      l.dropWhile p = x :: t → p x = false := by
  intro l
  induction l with
  | nil => intro x t h; simp at h
  | cons c rest ih =>
    intro x t h
    rw [List.dropWhile_cons] at h
    by_cases hc : p c
    · rw [if_pos hc] at h
      exact ih x t h
    · rw [if_neg hc] at h
      cases h
      simpa using hc

/-- `dropWhile` is idempotent. -/
theorem dropWhile_idem {p : Char → Bool} (l : List Char) :
    (l.dropWhile p).dropWhile p = l.dropWhile p := by
  cases h : l.dropWhile p with
  | nil => rfl
  | cons x t =>
    rw [List.dropWhile_cons, if_neg (by simp [dropWhile_head_false l x t h])]

/-- `rstrip` is idempotent. -/
theorem rstrip_idem (l : List Char) : rstrip (rstrip l) = rstrip l := by
  unfold rstrip
  rw [List.reverse_reverse, dropWhile_idem]

/-- `lstrip` after `rstrip` after `lstrip` is inert. -/
theorem lstrip_rstrip_lstrip (l : List Char) :
    lstrip (rstrip (lstrip l)) = rstrip (lstrip l) := by
  cases h : rstrip (lstrip l) with
  | nil => rfl
  | cons y t =>
    obtain ⟨hsplit, -⟩ := rstrip_append (lstrip l)
    have hv : lstrip l = y :: (t ++ ((lstrip l).reverse.takeWhile
        isSpace).reverse) := by
      conv_lhs => rw [hsplit]
      rw [h]
      simp
    have hy : isSpace y = false := by
      have : (lstrip l).dropWhile isSpace = lstrip l := dropWhile_idem l
      rw [hv] at this
      by_cases hsy : isSpace y
      · exfalso
        rw [List.dropWhile_cons, if_pos hsy] at this
        have hlen := congrArg List.length this
        rw [List.length_cons] at hlen
        have hle := (List.dropWhile_sublist (p := isSpace)
          (l := t ++ ((lstrip l).reverse.takeWhile isSpace).reverse)).length_le
        omega
      · simpa using hsy
    unfold lstrip
    rw [List.dropWhile_cons, if_neg (by simp [hy])]

/-- `strip` is idempotent. -/
theorem pyStrip_idem (l : List Char) : pyStrip (pyStrip l) = pyStrip l := by
  unfold pyStrip
  rw [lstrip_rstrip_lstrip, rstrip_idem]

/-- Claim C10 (confirmed): the paragraph count recorded for a processed
document is `1` when the cleaned text is non-empty and `0` when it is
empty — never more, because `strip_html` collapses every newline to a
space, so the blank-line splitter `\n\s*\n` never fires. -/
theorem paragraph_count_at_most_one (s : List Char) :
    (count_statistics (strip_html s).text).paragraph_count =
      (if (strip_html s).text.isEmpty then 0 else 1) ∧
    (count_statistics (strip_html s).text).paragraph_count ≤ 1 := by
  have hsplit : splitParagraphs (strip_html s).text =
      [(strip_html s).text] := by
    unfold splitParagraphs
    rw [paraAux_no_newline _ [] (strip_html_text_no_newline s)]
    rfl
  have hstrip : pyStrip (strip_html s).text = (strip_html s).text := by
    show pyStrip (pyStrip (collapseWS (removeTags
      (removeStyle (removeScript s))))) = _
    rw [pyStrip_idem]
    rfl
  have hpc : (count_statistics (strip_html s).text).paragraph_count =
      (((splitParagraphs (strip_html s).text).map pyStrip).filter
        (fun p => !p.isEmpty)).length := rfl
  rw [hpc, hsplit]
  have hmap : [(strip_html s).text].map pyStrip = [(strip_html s).text] := by
    simp only [List.map_cons, List.map_nil, hstrip]
  rw [hmap]
  have hlen : (List.filter (fun p => !p.isEmpty)
      [(strip_html s).text]).length =
      (if (strip_html s).text.isEmpty then 0 else 1) := by
    by_cases hE : (strip_html s).text.isEmpty
    · rw [List.filter_cons, if_neg (by simp [hE]), if_pos hE]
      rfl
    · rw [List.filter_cons, if_pos (by simpa using hE), if_neg hE]
      rfl
  refine ⟨hlen, ?_⟩
  rw [hlen]
  split <;> omega

/-!
## C3 — link/image extraction order

Infrastructure: stepping lemmas for the two fuel-structural regex scanners,
and character facts about case folding.
-/

/-- `Char.ofNat` on a valid scalar value is faithful on `toNat`. -/
theorem toNat_ofNat_valid {n : ℕ} (h : n < 55296) :
    (Char.ofNat n).toNat = n := by
  rw [Char.ofNat, dif_pos (Or.inl h)]
  rfl

/-- Case folding moves only uppercase letters, so it cannot produce `'<'`
from anything but `'<'`. -/
theorem pyLower_ne_lt {p : Char} (hp : p ≠ '<') : pyLower p ≠ '<' := by
  unfold pyLower
  by_cases h : 65 ≤ p.toNat ∧ p.toNat ≤ 90
  · rw [if_pos h]
    intro heq
    have h2 := congrArg Char.toNat heq
    rw [toNat_ofNat_valid (by omega)] at h2
    have h60 : ('<' : Char).toNat = 60 := rfl
    rw [h60] at h2
    omega
  · rw [if_neg h]
    exact hp

/-- A pattern starting with `'<'` never matches at a non-`'<'` position. -/
theorem isPrefixCI_lt_head_false (o' : List Char) {x : Char}
    (rest : List Char) (hx : x ≠ '<') :
    isPrefixCI ('<' :: o') (x :: rest) = false := by
  have h1 : pyLower '<' = '<' := rfl
  have h2 : ¬ (pyLower '<' = pyLower x) := by
    rw [h1]
    exact fun h => pyLower_ne_lt hx h.symm
  simp only [isPrefixCI, decide_eq_false h2, Bool.false_and]

/-- Every pattern matches itself, case-insensitively, before anything. -/
theorem isPrefixCI_append_self :
    ∀ (p X : List Char), isPrefixCI p (p ++ X) = true := by
  intro p
  induction p with
  | nil => intro X; rfl
  | cons a p' ih =>
    intro X
    have hstep : isPrefixCI (a :: p') ((a :: p') ++ X) =
        (decide (pyLower a = pyLower a) && isPrefixCI p' (p' ++ X)) := rfl
    rw [hstep, ih X]
    simp

/-- The scanners ignore fuel beyond the input length.  Auxiliary bounds
first. -/
theorem removeBlocksFuel_nil (opn cls : List Char) (f : ℕ) :
    removeBlocksFuel opn cls f [] = [] := by
  cases f <;> rfl

theorem dropThroughChar_length {ch : Char} :
    ∀ {l r : List Char}, dropThroughChar ch l = some r →
      r.length < l.length := by
  intro l
  induction l with
  | nil => intro r h; simp [dropThroughChar] at h
  | cons x xs ih =>
    intro r h
    rw [dropThroughChar] at h
    by_cases hx : x = ch
    · rw [if_pos hx] at h
      cases h
      simp
    · rw [if_neg hx] at h
      have := ih h
      simp only [List.length_cons]
      omega

theorem dropThroughSubstr_length {pat : List Char} :
    ∀ {l r : List Char}, dropThroughSubstr pat l = some r →
      r.length ≤ l.length := by
  intro l
  induction l with
  | nil => intro r h; simp [dropThroughSubstr] at h
  | cons x xs ih =>
    intro r h
    rw [dropThroughSubstr] at h
    by_cases hx : isPrefixCI pat (x :: xs) = true
    · rw [if_pos hx] at h
      cases h
      exact (List.length_drop _ _).le.trans (by simp)
    · rw [if_neg hx] at h
      have := ih h
      simp only [List.length_cons]
      omega

/-- Length bound on a successful block match. -/
theorem blockMatch_length {opn cls : List Char} {c : Char}
    {rest r3 : List Char}
    (h : (dropThroughChar '>' ((c :: rest).drop opn.length)).bind
      (dropThroughSubstr cls) = some r3) : r3.length ≤ rest.length := by
  rcases Option.bind_eq_some.mp h with ⟨r2, h2, h3⟩
  have hb2 := dropThroughChar_length h2
  have hb3 := dropThroughSubstr_length h3
  have hdrop : ((c :: rest).drop opn.length).length ≤ (c :: rest).length := by
    rw [List.length_drop]
    omega
  simp only [List.length_cons] at hdrop
  omega

/-- Fuel irrelevance for the block scanner. -/
theorem removeBlocksFuel_irrel (opn cls : List Char) :
    ∀ (fuel : ℕ) (l : List Char), l.length ≤ fuel →
      ∀ fuel', l.length ≤ fuel' →
        removeBlocksFuel opn cls fuel l = removeBlocksFuel opn cls fuel' l := by
  intro fuel
  induction fuel with
  | zero =>
    intro l hl fuel' _
    have : l = [] := List.length_eq_zero.mp (Nat.le_zero.mp hl)
    subst this
    rw [removeBlocksFuel_nil, removeBlocksFuel_nil]
  | succ f ih =>
    intro l hl fuel' hl'
    cases l with
    | nil => rw [removeBlocksFuel_nil, removeBlocksFuel_nil]
    | cons c rest =>
      cases fuel' with
      | zero => simp at hl'
      | succ f' =>
        simp only [List.length_cons] at hl hl'
        simp only [removeBlocksFuel]
        by_cases hp : isPrefixCI opn (c :: rest) = true
        · rw [if_pos hp, if_pos hp]
          cases hm : (dropThroughChar '>' ((c :: rest).drop opn.length)).bind
              (dropThroughSubstr cls) with
          | some r3 =>
            have hb := blockMatch_length hm
            exact ih r3 (by omega) f' (by omega)
          | none =>
            rw [ih rest (by omega) f' (by omega)]
        · rw [if_neg hp, if_neg hp, ih rest (by omega) f' (by omega)]

/-- One non-matching step of the block scanner. -/
theorem removeBlocksFuel_step {opn cls : List Char} {x : Char}
    {l : List Char} (f : ℕ) (h : isPrefixCI opn (x :: l) = false) :
    removeBlocksFuel opn cls (f + 1) (x :: l) =
      x :: removeBlocksFuel opn cls f l := by
  simp [removeBlocksFuel, h]

/-- The block scanner copies a `'<'`-free prefix verbatim. -/
theorem removeBlocksFuel_append (o' cls : List Char) :
    ∀ (pre l : List Char) (f : ℕ), (∀ x ∈ pre, x ≠ '<') →
      removeBlocksFuel ('<' :: o') cls (pre.length + f) (pre ++ l) =
        pre ++ removeBlocksFuel ('<' :: o') cls f l := by
  intro pre
  induction pre with
  | nil => intro l f _; simp
  | cons p pre' ih =>
    intro l f h
    have hp : p ≠ '<' := h p (List.mem_cons_self p pre')
    have harith : (p :: pre').length + f = (pre'.length + f) + 1 := by
      simp only [List.length_cons]
      omega
    rw [harith, List.cons_append,
      removeBlocksFuel_step _ (isPrefixCI_lt_head_false o' _ hp),
      ih l f (fun x hx => h x (List.mem_cons_of_mem p hx))]
    rfl

/-- The non-greedy close-tag search stops at the first occurrence: with a
`'<'`-free `body`, it is the explicit one. -/
theorem dropThroughSubstr_exact (p' : List Char) :
    ∀ (body post : List Char), (∀ x ∈ body, x ≠ '<') →
      dropThroughSubstr ('<' :: p') (body ++ ('<' :: p') ++ post) =
        some post := by
  intro body
  induction body with
  | nil =>
    intro post _
    show dropThroughSubstr ('<' :: p') ('<' :: (p' ++ post)) = some post
    rw [dropThroughSubstr]
    have hpre : isPrefixCI ('<' :: p') ('<' :: (p' ++ post)) = true := by
      have := isPrefixCI_append_self ('<' :: p') post
      simpa using this
    rw [if_pos hpre]
    simp only [List.length_cons, List.drop_succ_cons, Option.some_inj]
    exact List.drop_left p' post
  | cons b body' ih =>
    intro post h
    have hb : b ≠ '<' := h b (List.mem_cons_self b body')
    show dropThroughSubstr ('<' :: p')
      (b :: (body' ++ ('<' :: p') ++ post)) = some post
    rw [dropThroughSubstr,
      if_neg (by simp [isPrefixCI_lt_head_false p' _ hb])]
    exact ih post (fun x hx => h x (List.mem_cons_of_mem b hx))

/-- A whole block `<tag …> … </tag>` is removed in one match when its body
holds no `'<'`. -/
theorem removeBlocksFuel_block (o' cls' : List Char) :
    ∀ (body post : List Char) (f : ℕ), (∀ x ∈ body, x ≠ '<') →
      removeBlocksFuel ('<' :: o') ('<' :: cls') (f + 1)
        (('<' :: o') ++ '>' :: (body ++ ('<' :: cls') ++ post)) =
        removeBlocksFuel ('<' :: o') ('<' :: cls') f post := by
  intro body post f h
  have hshape : ('<' :: o') ++ '>' :: (body ++ ('<' :: cls') ++ post) =
      '<' :: (o' ++ '>' :: (body ++ ('<' :: cls') ++ post)) := by simp
  rw [hshape]
  simp only [removeBlocksFuel]
  have hpre : isPrefixCI ('<' :: o')
      ('<' :: (o' ++ '>' :: (body ++ ('<' :: cls') ++ post))) = true := by
    have := isPrefixCI_append_self ('<' :: o')
      ('>' :: (body ++ ('<' :: cls') ++ post))
    simpa using this
  rw [if_pos hpre]
  have hdrop : ('<' :: (o' ++ '>' :: (body ++ ('<' :: cls') ++ post))).drop
      ('<' :: o').length = '>' :: (body ++ ('<' :: cls') ++ post) := by
    simp only [List.length_cons, List.drop_succ_cons]
    exact List.drop_left o' _
  rw [hdrop]
  have hchar : dropThroughChar '>' ('>' :: (body ++ ('<' :: cls') ++ post)) =
      some (body ++ ('<' :: cls') ++ post) := by
    rw [dropThroughChar, if_pos rfl]
  rw [hchar, Option.some_bind, dropThroughSubstr_exact cls' body post h]

/-- `removeScript` removes one `'<'`-free-bodied script block and leaves a
`'<'`-free prefix alone. -/
theorem removeScript_block (pre body post : List Char)
    (hpre : ∀ x ∈ pre, x ≠ '<') (hbody : ∀ x ∈ body, x ≠ '<') :
    removeScript (pre ++ "<script>".data ++ body ++ "</script>".data ++ post) =
      pre ++ removeScript post := by
  unfold removeScript
  rw [show pre ++ "<script>".data ++ body ++ "</script>".data ++ post =
      pre ++ (("<script".data) ++ '>' ::
        (body ++ ("</script>".data) ++ post)) from by simp]
  rw [show (pre ++ (("<script".data) ++ '>' ::
        (body ++ ("</script>".data) ++ post))).length =
      pre.length + ((7 + body.length + 9 + post.length) + 1) from by
    simp [List.length_append]
    omega]
  rw [show ("<script".data : List Char) = '<' :: "script".data from rfl]
  rw [removeBlocksFuel_append "script".data "</script>".data pre _ _ hpre]
  rw [show ('<' :: "script".data : List Char) ++ '>' ::
      (body ++ "</script>".data ++ post) =
    ('<' :: "script".data) ++ '>' ::
      (body ++ ('<' :: "/script>".data) ++ post) from by simp]
  rw [show (("</script>".data : List Char)) = '<' :: "/script>".data from rfl]
  rw [removeBlocksFuel_block "script".data "/script>".data body post _ hbody]
  congr 1
  apply removeBlocksFuel_irrel
  · omega
  · omega

/-- `removeScript`/`removeStyle` copy a `'<'`-free prefix verbatim. -/
theorem removeScript_append (pre l : List Char)
    (hpre : ∀ x ∈ pre, x ≠ '<') :
    removeScript (pre ++ l) = pre ++ removeScript l := by
  unfold removeScript
  rw [show ("<script".data : List Char) = '<' :: "script".data from rfl,
    show (pre ++ l).length = pre.length + l.length from by simp]
  exact removeBlocksFuel_append "script".data "</script>".data pre l
    l.length hpre

theorem removeStyle_append (pre l : List Char)
    (hpre : ∀ x ∈ pre, x ≠ '<') :
    removeStyle (pre ++ l) = pre ++ removeStyle l := by
  unfold removeStyle
  rw [show ("<style".data : List Char) = '<' :: "style".data from rfl,
    show (pre ++ l).length = pre.length + l.length from by simp]
  exact removeBlocksFuel_append "style".data "</style>".data pre l
    l.length hpre

/-- `removeStyle` removes a style block with a `'<'`-free body. -/
theorem removeStyle_block (pre body post : List Char)
    (hpre : ∀ x ∈ pre, x ≠ '<') (hbody : ∀ x ∈ body, x ≠ '<') :
    removeStyle (pre ++ "<style>".data ++ body ++ "</style>".data ++ post) =
      pre ++ removeStyle post := by
  unfold removeStyle
  rw [show pre ++ "<style>".data ++ body ++ "</style>".data ++ post =
      pre ++ (("<style".data) ++ '>' ::
        (body ++ ("</style>".data) ++ post)) from by simp]
  rw [show (pre ++ (("<style".data) ++ '>' ::
        (body ++ ("</style>".data) ++ post))).length =
      pre.length + ((6 + body.length + 8 + post.length) + 1) from by
    simp [List.length_append]
    omega]
  rw [show ("<style".data : List Char) = '<' :: "style".data from rfl]
  rw [removeBlocksFuel_append "style".data "</style>".data pre _ _ hpre]
  rw [show ('<' :: "style".data : List Char) ++ '>' ::
      (body ++ "</style>".data ++ post) =
    ('<' :: "style".data) ++ '>' ::
      (body ++ ('<' :: "/style>".data) ++ post) from by simp]
  rw [show (("</style>".data : List Char)) = '<' :: "/style>".data from rfl]
  rw [removeBlocksFuel_block "style".data "/style>".data body post _ hbody]
  congr 1
  apply removeBlocksFuel_irrel
  · omega
  · omega

/-- The script scanner walks over a style block without touching it. -/
theorem removeScript_over_style (body post : List Char)
    (hbody : ∀ x ∈ body, x ≠ '<') :
    removeScript ("<style>".data ++ body ++ "</style>".data ++ post) =
      "<style>".data ++ body ++ "</style>".data ++ removeScript post := by
  unfold removeScript
  have hlen : ("<style>".data ++ body ++ "</style>".data ++ post).length =
      (6 + body.length + 8 + post.length) + 1 := by
    simp [List.length_append]
    omega
  have hshape : "<style>".data ++ body ++ "</style>".data ++ post =
      '<' :: (("style>".data ++ body) ++
        ('<' :: ("/style>".data ++ post))) := by simp
  rw [hlen, hshape]
  rw [removeBlocksFuel_step _ (by rfl)]
  have harith : (6 + body.length + 8 + post.length : ℕ) =
      ("style>".data ++ body).length + ((7 + post.length) + 1) := by
    simp [List.length_append]
    omega
  rw [show ("<script".data : List Char) = '<' :: "script".data from rfl]
  rw [harith]
  have hsty : ∀ x ∈ ("style>".data : List Char), x ≠ '<' := by decide
  rw [removeBlocksFuel_append "script".data "</script>".data
    ("style>".data ++ body) _ _ (by
      intro x hx
      rcases List.mem_append.mp hx with h | h
      · exact hsty x h
      · exact hbody x h)]
  rw [removeBlocksFuel_step _ (by rfl)]
  have harith2 : (7 + post.length : ℕ) = ("/style>".data).length + post.length := by
    simp
  rw [harith2]
  have hsty2 : ∀ x ∈ ("/style>".data : List Char), x ≠ '<' := by decide
  rw [removeBlocksFuel_append "script".data "</script>".data
    "/style>".data post _ hsty2]
  simp

theorem findAttrsFuel_nil (key : List Char) (f : ℕ) :
    findAttrsFuel key f [] = [] := by
  cases f <;> rfl

/-- A successful attribute-value match consumes at least one character. -/
theorem matchAttrVal_length :
    ∀ {l cap r' : List Char}, matchAttrVal l = some (cap, r') →
      r'.length < l.length := by
  intro l cap r' h
  cases l with
  | nil => simp [matchAttrVal] at h
  | cons q rs =>
    rw [matchAttrVal] at h
    by_cases hq : (q = '\'' || q = '"') = true
    · rw [if_pos hq] at h
      by_cases he : (rs.takeWhile isAttrChar).isEmpty
      · rw [if_pos he] at h
        simp at h
      · rw [if_neg he] at h
        obtain ⟨-, rfl⟩ := Prod.mk.injEq .. ▸ Option.some_inj.mp h
        have := List.length_drop ((rs.takeWhile isAttrChar).length) rs
        simp only [List.length_cons, this]
        omega
    · rw [if_neg hq] at h
      by_cases he : ((q :: rs).takeWhile isAttrChar).isEmpty
      · rw [if_pos he] at h
        simp at h
      · rw [if_neg he] at h
        obtain ⟨-, rfl⟩ := Prod.mk.injEq .. ▸ Option.some_inj.mp h
        have hpos : 1 ≤ ((q :: rs).takeWhile isAttrChar).length := by
          cases hc : (q :: rs).takeWhile isAttrChar with
          | nil => rw [hc] at he; simp at he
          | cons a b => simp
        have := List.length_drop (((q :: rs).takeWhile isAttrChar).length)
          (q :: rs)
        simp only [List.length_cons] at this ⊢
        omega

/-- Fuel irrelevance for the attribute scanner. -/
theorem findAttrsFuel_irrel (key : List Char) :
    ∀ (fuel : ℕ) (l : List Char), l.length ≤ fuel →
      ∀ fuel', l.length ≤ fuel' →
        findAttrsFuel key fuel l = findAttrsFuel key fuel' l := by
  intro fuel
  induction fuel with
  | zero =>
    intro l hl fuel' _
    have : l = [] := List.length_eq_zero.mp (Nat.le_zero.mp hl)
    subst this
    rw [findAttrsFuel_nil, findAttrsFuel_nil]
  | succ f ih =>
    intro l hl fuel' hl'
    cases l with
    | nil => rw [findAttrsFuel_nil, findAttrsFuel_nil]
    | cons c rest =>
      cases fuel' with
      | zero => simp at hl'
      | succ f' =>
        simp only [List.length_cons] at hl hl'
        simp only [findAttrsFuel]
        by_cases hp : isPrefixCI key (c :: rest) = true
        · rw [if_pos hp, if_pos hp]
          cases hm : matchAttrVal ((c :: rest).drop key.length) with
          | some capr =>
            obtain ⟨cap, r'⟩ := capr
            have hb := matchAttrVal_length hm
            have hdrop : ((c :: rest).drop key.length).length ≤
                (c :: rest).length := by
              rw [List.length_drop]
              omega
            simp only [List.length_cons] at hdrop
            show cap :: findAttrsFuel key f r' = cap :: findAttrsFuel key f' r'
            rw [ih r' (by omega) f' (by omega)]
          | none =>
            show findAttrsFuel key f rest = findAttrsFuel key f' rest
            rw [ih rest (by omega) f' (by omega)]
        · rw [if_neg hp, if_neg hp, ih rest (by omega) f' (by omega)]

/-- One non-matching step of the attribute scanner. -/
theorem findAttrsFuel_step {key : List Char} {x : Char} {l : List Char}
    (f : ℕ) (h : isPrefixCI key (x :: l) = false) :
    findAttrsFuel key (f + 1) (x :: l) = findAttrsFuel key f l := by
  simp [findAttrsFuel, h]

/-- `takeWhile` over an all-good list stops exactly at the first bad
character. -/
theorem takeWhile_all_stop {p : Char → Bool} :
    ∀ (v : List Char) (x : Char) (r : List Char),
      (∀ c ∈ v, p c = true) → p x = false →
      (v ++ x :: r).takeWhile p = v := by
  intro v
  induction v with
  | nil =>
    intro x r _ hx
    rw [List.nil_append, List.takeWhile_cons, if_neg (by simp [hx])]
  | cons c v' ih =>
    intro x r h hx
    rw [List.cons_append, List.takeWhile_cons,
      if_pos (h c (List.mem_cons_self c v')),
      ih x r (fun d hd => h d (List.mem_cons_of_mem c hd)) hx]

/-- The `<a href="v">` tag family used to witness extraction order. -/
def hrefTags (vs : List (List Char)) : List Char :=
  (vs.map (fun v => "<a href=\"".data ++ v ++ "\">".data)).flatten

/-- The `<img src="v">` tag family. -/
def imgTags (ws : List (List Char)) : List Char :=
  (ws.map (fun v => "<img src=\"".data ++ v ++ "\">".data)).flatten

/-- Scanning one `<a href="v">` tag yields exactly `v` and moves on. -/
theorem findAttrsFuel_href_chunk (v rest : List Char) (f : ℕ)
    (hv : v ≠ []) (hall : ∀ c ∈ v, isAttrChar c = true) :
    findAttrsFuel "href=".data (f + 6)
        ("<a href=\"".data ++ v ++ "\">".data ++ rest) =
      v :: findAttrsFuel "href=".data f rest := by
  have hshape : "<a href=\"".data ++ v ++ "\">".data ++ rest =
      '<' :: 'a' :: ' ' :: ('h' :: 'r' :: 'e' :: 'f' :: '=' ::
        ('"' :: (v ++ '"' :: '>' :: rest))) := by
    simp only [List.append_assoc]
    rfl
  rw [hshape]
  rw [show (f + 6 : ℕ) = (f + 5) + 1 from by omega,
    findAttrsFuel_step (f + 5) (by rfl)]
  rw [show (f + 5 : ℕ) = (f + 4) + 1 from by omega,
    findAttrsFuel_step (f + 4) (by rfl)]
  rw [show (f + 4 : ℕ) = (f + 3) + 1 from by omega,
    findAttrsFuel_step (f + 3) (by rfl)]
  rw [show (f + 3 : ℕ) = (f + 2) + 1 from by omega]
  have hmv : matchAttrVal (('h' :: 'r' :: 'e' :: 'f' :: '=' ::
      ('"' :: (v ++ '"' :: '>' :: rest))).drop ("href=".data).length) =
      some (v, '"' :: '>' :: rest) := by
    show matchAttrVal ('"' :: (v ++ '"' :: '>' :: rest)) = _
    rw [matchAttrVal]
    rw [if_pos (by decide)]
    rw [takeWhile_all_stop v '"' ('>' :: rest) hall (by decide)]
    rw [if_neg (by simpa using hv)]
    rw [List.drop_left]
  rw [show findAttrsFuel "href=".data ((f + 2) + 1)
      ('h' :: 'r' :: 'e' :: 'f' :: '=' :: ('"' :: (v ++ '"' :: '>' :: rest))) =
    (if isPrefixCI "href=".data ('h' :: 'r' :: 'e' :: 'f' :: '=' ::
        ('"' :: (v ++ '"' :: '>' :: rest))) = true then
      match matchAttrVal (('h' :: 'r' :: 'e' :: 'f' :: '=' ::
          ('"' :: (v ++ '"' :: '>' :: rest))).drop ("href=".data).length) with
      | some (cap, r') => cap :: findAttrsFuel "href=".data (f + 2) r'
      | none => findAttrsFuel "href=".data (f + 2) ('r' :: 'e' :: 'f' :: '=' ::
          ('"' :: (v ++ '"' :: '>' :: rest)))
    else findAttrsFuel "href=".data (f + 2) ('r' :: 'e' :: 'f' :: '=' ::
        ('"' :: (v ++ '"' :: '>' :: rest)))) from rfl]
  rw [if_pos (by rfl), hmv]
  show v :: findAttrsFuel "href=".data (f + 2) ('"' :: '>' :: rest) =
    v :: findAttrsFuel "href=".data f rest
  rw [show (f + 2 : ℕ) = (f + 1) + 1 from by omega,
    findAttrsFuel_step (f + 1) (by rfl),
    findAttrsFuel_step f (by rfl)]

/-- Scanning one `<img src="v">` tag yields exactly `v` and moves on. -/
theorem findAttrsFuel_src_chunk (v rest : List Char) (f : ℕ)
    (hv : v ≠ []) (hall : ∀ c ∈ v, isAttrChar c = true) :
    findAttrsFuel "src=".data (f + 8)
        ("<img src=\"".data ++ v ++ "\">".data ++ rest) =
      v :: findAttrsFuel "src=".data f rest := by
  have hshape : "<img src=\"".data ++ v ++ "\">".data ++ rest =
      '<' :: 'i' :: 'm' :: 'g' :: ' ' :: ('s' :: 'r' :: 'c' :: '=' ::
        ('"' :: (v ++ '"' :: '>' :: rest))) := by
    simp only [List.append_assoc]
    rfl
  rw [hshape]
  rw [show (f + 8 : ℕ) = (f + 7) + 1 from by omega,
    findAttrsFuel_step (f + 7) (by rfl)]
  rw [show (f + 7 : ℕ) = (f + 6) + 1 from by omega,
    findAttrsFuel_step (f + 6) (by rfl)]
  rw [show (f + 6 : ℕ) = (f + 5) + 1 from by omega,
    findAttrsFuel_step (f + 5) (by rfl)]
  rw [show (f + 5 : ℕ) = (f + 4) + 1 from by omega,
    findAttrsFuel_step (f + 4) (by rfl)]
  rw [show (f + 4 : ℕ) = (f + 3) + 1 from by omega,
    findAttrsFuel_step (f + 3) (by rfl)]
  rw [show (f + 3 : ℕ) = (f + 2) + 1 from by omega]
  have hmv : matchAttrVal (('s' :: 'r' :: 'c' :: '=' ::
      ('"' :: (v ++ '"' :: '>' :: rest))).drop ("src=".data).length) =
      some (v, '"' :: '>' :: rest) := by
    show matchAttrVal ('"' :: (v ++ '"' :: '>' :: rest)) = _
    rw [matchAttrVal]
    rw [if_pos (by decide)]
    rw [takeWhile_all_stop v '"' ('>' :: rest) hall (by decide)]
    rw [if_neg (by simpa using hv)]
    rw [List.drop_left]
  rw [show findAttrsFuel "src=".data ((f + 2) + 1)
      ('s' :: 'r' :: 'c' :: '=' :: ('"' :: (v ++ '"' :: '>' :: rest))) =
    (if isPrefixCI "src=".data ('s' :: 'r' :: 'c' :: '=' ::
        ('"' :: (v ++ '"' :: '>' :: rest))) = true then
      match matchAttrVal (('s' :: 'r' :: 'c' :: '=' ::
          ('"' :: (v ++ '"' :: '>' :: rest))).drop ("src=".data).length) with
      | some (cap, r') => cap :: findAttrsFuel "src=".data (f + 2) r'
      | none => findAttrsFuel "src=".data (f + 2) ('r' :: 'c' :: '=' ::
          ('"' :: (v ++ '"' :: '>' :: rest)))
    else findAttrsFuel "src=".data (f + 2) ('r' :: 'c' :: '=' ::
        ('"' :: (v ++ '"' :: '>' :: rest)))) from rfl]
  rw [if_pos (by rfl), hmv]
  show v :: findAttrsFuel "src=".data (f + 2) ('"' :: '>' :: rest) =
    v :: findAttrsFuel "src=".data f rest
  rw [show (f + 2 : ℕ) = (f + 1) + 1 from by omega,
    findAttrsFuel_step (f + 1) (by rfl),
    findAttrsFuel_step f (by rfl)]

/-- All values of a valid `href` tag family are found, in order, duplicates
included. -/
theorem findAttrsFuel_hrefTags :
    ∀ (vs : List (List Char)) (f : ℕ),
      (∀ v ∈ vs, v ≠ [] ∧ (∀ c ∈ v, isAttrChar c = true)) →
      findAttrsFuel "href=".data (6 * vs.length + f) (hrefTags vs) = vs := by
  intro vs
  induction vs with
  | nil =>
    intro f _
    rw [show hrefTags [] = [] from rfl, findAttrsFuel_nil]
  | cons v vs' ih =>
    intro f h
    have hv := h v (List.mem_cons_self v vs')
    have hshape : hrefTags (v :: vs') =
        "<a href=\"".data ++ v ++ "\">".data ++ hrefTags vs' := by
      simp [hrefTags]
    have harith : 6 * (v :: vs').length + f = (6 * vs'.length + f) + 6 := by
      simp only [List.length_cons]
      omega
    rw [hshape, harith,
      findAttrsFuel_href_chunk v (hrefTags vs') _ hv.1 hv.2,
      ih f (fun w hw => h w (List.mem_cons_of_mem v hw))]

/-- All values of a valid `src` tag family are found, in order. -/
theorem findAttrsFuel_imgTags :
    ∀ (ws : List (List Char)) (f : ℕ),
      (∀ v ∈ ws, v ≠ [] ∧ (∀ c ∈ v, isAttrChar c = true)) →
      findAttrsFuel "src=".data (8 * ws.length + f) (imgTags ws) = ws := by
  intro ws
  induction ws with
  | nil =>
    intro f _
    rw [show imgTags [] = [] from rfl, findAttrsFuel_nil]
  | cons v ws' ih =>
    intro f h
    have hv := h v (List.mem_cons_self v ws')
    have hshape : imgTags (v :: ws') =
        "<img src=\"".data ++ v ++ "\">".data ++ imgTags ws' := by
      simp [imgTags]
    have harith : 8 * (v :: ws').length + f = (8 * ws'.length + f) + 8 := by
      simp only [List.length_cons]
      omega
    rw [hshape, harith,
      findAttrsFuel_src_chunk v (imgTags ws') _ hv.1 hv.2,
      ih f (fun w hw => h w (List.mem_cons_of_mem v hw))]

/-- Claim C3 (confirmed): `strip_html` extracts `href=`/`src=` values from
the markup left after script/style removal and before tag stripping.
Consequently (i) the link and image lists of an input containing a
script or style block (with `'<'`-free surroundings and body) equal those
of the input with the block deleted — attribute values inside removed
blocks are absent; (ii) the lists are literally the attribute scan of the
preserved markup; and (iii) on a family of ordinary tags every value is
extracted, in document order, duplicates preserved. -/
theorem link_image_extraction :
    (∀ pre body post : List Char,
      (∀ x ∈ pre, x ≠ '<') → (∀ x ∈ body, x ≠ '<') →
      ((strip_html (pre ++ "<script>".data ++ body ++ "</script>".data
          ++ post)).links = (strip_html (pre ++ post)).links ∧
        (strip_html (pre ++ "<script>".data ++ body ++ "</script>".data
          ++ post)).images = (strip_html (pre ++ post)).images) ∧
      ((strip_html (pre ++ "<style>".data ++ body ++ "</style>".data
          ++ post)).links = (strip_html (pre ++ post)).links ∧
        (strip_html (pre ++ "<style>".data ++ body ++ "</style>".data
          ++ post)).images = (strip_html (pre ++ post)).images)) ∧
    (∀ s : List Char,
      (strip_html s).links =
        findAttrs "href=".data (removeStyle (removeScript s)) ∧
      (strip_html s).images =
        findAttrs "src=".data (removeStyle (removeScript s))) ∧
    (∀ vs : List (List Char),
      (∀ v ∈ vs, v ≠ [] ∧ (∀ c ∈ v, isAttrChar c = true)) →
      findAttrs "href=".data (hrefTags vs) = vs) ∧
    (∀ ws : List (List Char),
      (∀ v ∈ ws, v ≠ [] ∧ (∀ c ∈ v, isAttrChar c = true)) →
      findAttrs "src=".data (imgTags ws) = ws) := by
  have hchain : ∀ pre post : List Char, (∀ x ∈ pre, x ≠ '<') →
      removeStyle (removeScript (pre ++ post)) =
        pre ++ removeStyle (removeScript post) := by
    intro pre post hpre
    rw [removeScript_append pre post hpre,
      removeStyle_append pre (removeScript post) hpre]
  refine ⟨?_, fun s => ⟨rfl, rfl⟩, ?_, ?_⟩
  · intro pre body post hpre hbody
    have hscript : removeStyle (removeScript
        (pre ++ "<script>".data ++ body ++ "</script>".data ++ post)) =
        pre ++ removeStyle (removeScript post) := by
      rw [removeScript_block pre body post hpre hbody,
        removeStyle_append pre (removeScript post) hpre]
    have hstyle : removeStyle (removeScript
        (pre ++ "<style>".data ++ body ++ "</style>".data ++ post)) =
        pre ++ removeStyle (removeScript post) := by
      have h1 : pre ++ "<style>".data ++ body ++ "</style>".data ++ post =
          pre ++ ("<style>".data ++ body ++ "</style>".data ++ post) := by
        simp [List.append_assoc]
      rw [h1, removeScript_append pre _ hpre,
        removeScript_over_style body post hbody]
      have h2 : pre ++ ("<style>".data ++ body ++ "</style>".data ++
          removeScript post) = (pre ++ "<style>".data) ++ body ++
          "</style>".data ++ removeScript post := by
        simp [List.append_assoc]
      rw [h2]
      have h3 : (pre ++ "<style>".data) ++ body ++ "</style>".data ++
          removeScript post = pre ++ "<style>".data ++ body ++
          "</style>".data ++ removeScript post := by
        simp [List.append_assoc]
      rw [h3, removeStyle_block pre body (removeScript post) hpre hbody]
    have hlinks : ∀ u : List Char, (strip_html u).links =
        findAttrs "href=".data (removeStyle (removeScript u)) := fun _ => rfl
    have himages : ∀ u : List Char, (strip_html u).images =
        findAttrs "src=".data (removeStyle (removeScript u)) := fun _ => rfl
    refine ⟨⟨?_, ?_⟩, ?_, ?_⟩
    · rw [hlinks, hlinks, hscript, hchain pre post hpre]
    · rw [himages, himages, hscript, hchain pre post hpre]
    · rw [hlinks, hlinks, hstyle, hchain pre post hpre]
    · rw [himages, himages, hstyle, hchain pre post hpre]
  · intro vs h
    unfold findAttrs
    rw [findAttrsFuel_irrel "href=".data (hrefTags vs).length (hrefTags vs)
      le_rfl (6 * vs.length + (hrefTags vs).length) (by omega)]
    exact findAttrsFuel_hrefTags vs _ h
  · intro ws h
    unfold findAttrs
    rw [findAttrsFuel_irrel "src=".data (imgTags ws).length (imgTags ws)
      le_rfl (8 * ws.length + (imgTags ws).length) (by omega)]
    exact findAttrsFuel_imgTags ws _ h

/-- Witness for C3 at concrete inputs: a script block hiding an `href`, and
a duplicate-valued tag family. -/
theorem link_image_extraction_witness :
    (∀ x ∈ ("p ".data : List Char), x ≠ '<') ∧
    (∀ x ∈ ("href=evil ".data : List Char), x ≠ '<') ∧
    (strip_html ("p ".data ++ "<script>".data ++ "href=evil ".data ++
        "</script>".data ++ "<a href=u>".data)).links =
      (strip_html ("p ".data ++ "<a href=u>".data)).links ∧
    (strip_html ("p ".data ++ "<a href=u>".data)).links = ["u".data] ∧
    findAttrs "href=".data (hrefTags ["u".data, "u".data]) =
      ["u".data, "u".data] := by
  refine ⟨by decide, by decide, ?_, by decide, ?_⟩
  · exact ((link_image_extraction.1 "p ".data "href=evil ".data
      "<a href=u>".data (by decide) (by decide)).1).1
  · exact link_image_extraction.2.2.1 ["u".data, "u".data] (by decide)

end Pipeline
